import Mathlib

/-!
# ConnPool: a bounded resource pool (connpool/pool.go)

A shallow embedding of the Go package `connpool` and a verification of its
specification.

Modelling decisions, all read off the source:

* A `ResourceAble` interface value is either `nil` or a reference to a resource
  object; the reference is its identity.  Method calls on a nil interface panic.
* `Close()` and `IsActive()` are calls into the resource; the model records every
  such call (`closed`, `probed`).  The answer of `IsActive()` is supplied by the
  caller of the model as the liveness of the resources at the time of the call.
* The factory is a Go closure with side effects; it is modelled by the sequence
  of its results, indexed by the number of earlier invocations (`calls`).
* `int32` fields are integers in the int32 range with wrap-around arithmetic.
* The channel `p` is a FIFO buffer with a fixed capacity.  A send on a full channel
  blocks; inside the pool every receive happens under the mutex the sender holds
  (or, in CreatePool, before the pool is shared), so a blocked send never resumes.
* `getOrCreate` and `ReleaseResource` hold the mutex from entry to exit, so each is
  one atomic step and a concurrent execution is an interleaving of such steps.
* The factory and the methods of a non-nil resource are taken to return (they
  neither panic nor block).
* `log.Println` calls do not touch the pool and are left out.
-/

namespace ConnPool

/-- Identity of a resource object (the reference held by a non-nil interface value). -/
abbrev ResId := Nat

/-- A value of the interface type ResourceAble; `none` is the nil interface. -/
abbrev ResourceAble := Option ResId

/-- Non-nil error values: the package-level sentinel TRY_AGAIN, or any other error. -/
inductive ErrVal where
  | tryAgain
  | other (code : Nat)
  deriving DecidableEq, Repr

/-- A value of Go's `error` interface; `none` is nil. -/
abbrev error := Option ErrVal

/-- The package variable `TRY_AGAIN = errors.New("try again")`. -/
def TRY_AGAIN : error := some ErrVal.tryAgain

/-- The type `Factory func() (ResourceAble, error)`: `f k` is what the invocation
preceded by `k` earlier invocations returns. -/
abbrev Factory := Nat → ResourceAble × error

/-- Go's int32: the integers from -2^31 to 2^31 - 1. -/
abbrev int32 := { x : Int // -2147483648 ≤ x ∧ x ≤ 2147483647 }

/-- Two's-complement wrap-around of an integer into int32. -/
def wrap32 (x : Int) : int32 :=
  ⟨(x + 2147483648) % 4294967296 - 2147483648, by omega⟩

/-- A buffered channel of ResourceAble: capacity and queued values, oldest first. -/
structure Chan where
  cap : Nat
  buf : List ResourceAble
  deriving DecidableEq, Repr

/-- The call `make(chan ResourceAble, size)`: panics (`none`) on a negative size. -/
def makeChan (size : Int) : Option Chan :=
  if size < 0 then none else some ⟨size.toNat, []⟩

/-- The statement `c <- r` with no receiver able to run: `none` when the send blocks. -/
def Chan.send (c : Chan) (r : ResourceAble) : Option Chan :=
  if c.buf.length < c.cap then some { c with buf := c.buf ++ [r] } else none

/-- The struct commonPool (the embedded mutex is what makes the operations atomic). -/
structure commonPool where
  maxConn : int32
  openConn : int32
  p : Chan
  factory : Factory

/-- The pool together with the record of its calls into the environment. -/
structure Sys where
  cp : commonPool
  /-- number of factory invocations so far -/
  calls : Nat
  /-- receivers of `Close()`, in call order -/
  closed : List ResId
  /-- receivers of `IsActive()`, in call order -/
  probed : List ResId

/-- How a call ends: it returns, it panics, or it blocks forever. -/
inductive Outcome (α : Type) where
  | ok (a : α)
  | panic
  | blocked

/-- The pre-warm loop of CreatePool, with `n` iterations left. -/
def prewarm : Nat → Sys → Outcome Sys
  | 0, s => Outcome.ok s
  | n + 1, s =>
    let res := s.cp.factory s.calls
    let s1 : Sys := { s with calls := s.calls + 1 }
    if res.2 = none then
      match s1.cp.p.send res.1 with
      | some ch =>
        prewarm n { s1 with cp := { s1.cp with openConn := wrap32 (s1.cp.openConn.val + 1), p := ch } }
      | none => Outcome.blocked
    else prewarm n s1

/-- The function CreatePool. -/
def CreatePool (maxConn : int32) (factory : Factory) : Outcome Sys :=
  match makeChan maxConn.val with
  | none => Outcome.panic
  | some ch =>
    prewarm (Int.tdiv maxConn.val 2).toNat
      { cp := { maxConn := maxConn, openConn := wrap32 0, p := ch, factory := factory },
        calls := 0, closed := [], probed := [] }

/-- The method getOrCreate: the returned pair and the state it leaves. -/
def getOrCreate (s : Sys) : (ResourceAble × error) × Sys :=
  match s.cp.p.buf with
  | r :: rest => ((r, none), { s with cp := { s.cp with p := { s.cp.p with buf := rest } } })
  | [] =>
    if s.cp.openConn.val < s.cp.maxConn.val then
      let res := s.cp.factory s.calls
      let s1 : Sys := { s with calls := s.calls + 1 }
      if res.2 = none then
        (res, { s1 with cp := { s1.cp with openConn := wrap32 (s1.cp.openConn.val + 1) } })
      else (res, s1)
    else ((none, TRY_AGAIN), s)

/-- One iteration of the `for` loop of GetResource: `some` is the `return`,
`none` is a `continue`. -/
def GetResource.iter (s : Sys) : Option (ResourceAble × error) × Sys :=
  let out := getOrCreate s
  if out.1.2 = TRY_AGAIN then (none, out.2)
  else if out.1.2 ≠ none ∨ out.1.1 = none then (none, out.2)
  else (some (out.1.1, none), out.2)

/-- The method GetResource, run for at most `fuel` iterations of its loop;
`none` when it is still looping after that. -/
def GetResource : Nat → Sys → Option ((ResourceAble × error) × Sys)
  | 0, _ => none
  | fuel + 1, s =>
    match GetResource.iter s with
    | (some res, s1) => some (res, s1)
    | (none, s1) => GetResource fuel s1

/-- The function closeResource. -/
def closeResource (r : ResourceAble) (s : Sys) : Outcome Sys :=
  match r with
  | none => Outcome.panic
  | some id =>
    Outcome.ok { s with closed := s.closed ++ [id],
                        cp := { s.cp with openConn := wrap32 (s.cp.openConn.val - 1) } }

/-- The method ReleaseResource; `isActive` is the current liveness of the resources. -/
def ReleaseResource (isActive : ResId → Bool) (r : ResourceAble) (s : Sys) : Outcome Sys :=
  if s.cp.maxConn.val ≤ s.cp.openConn.val then closeResource r s
  else
    match r with
    | none => Outcome.panic
    | some id =>
      let s1 : Sys := { s with probed := s.probed ++ [id] }
      if isActive id = false then closeResource r s1
      else
        match s1.cp.p.send r with
        | some ch => Outcome.ok { s1 with cp := { s1.cp with p := ch } }
        | none => Outcome.blocked

/-! ## Executions

The pool does not record which resources its callers hold; the executions below
carry that as the multiset `out` of resources returned by GetResource and not
yet released. -/

/-- A pool together with the resources currently checked out of it. -/
structure Run where
  sys : Sys
  out : List ResId

/-- The atomic steps of the callers: one iteration of some caller's GetResource
loop, or one ReleaseResource call with the liveness the resource reports. -/
inductive Op where
  | attempt
  | release (r : ResId) (alive : Bool)
  deriving DecidableEq, Repr

/-- One step.  A release is taken only for a resource that is checked out, and
only if the call returns; a returned resource becomes checked out. -/
def Run.step (st : Run) : Op → Option Run
  | Op.attempt =>
    match GetResource.iter st.sys with
    | (some (some r, _), s1) => some ⟨s1, r :: st.out⟩
    | (_, s1) => some ⟨s1, st.out⟩
  | Op.release r alive =>
    if r ∈ st.out then
      match ReleaseResource (fun _ => alive) (some r) st.sys with
      | Outcome.ok s1 => some ⟨s1, st.out.erase r⟩
      | _ => none
    else none

/-- A finite sequence of steps. -/
def Run.exec : Run → List Op → Option Run
  | st, [] => some st
  | st, op :: ops =>
    match st.step op with
    | some st1 => Run.exec st1 ops
    | none => none

/-- A factory that always succeeds, with a new resource on every call. -/
def freshFactory : Factory := fun k => (some k, none)

/-- The results of the successful ones among the factory invocations numbered
`start`, ..., `start + n - 1`, in call order. -/
def warmed (f : Factory) (start n : Nat) : List ResourceAble :=
  ((List.range' start n).filter (fun k => decide ((f k).2 = none))).map (fun k => (f k).1)

/-- A factory whose first and third calls fail. -/
def flakyFactory : Factory := fun k =>
  if k = 0 ∨ k = 2 then (none, some (ErrVal.other k)) else (some k, none)

/-- A pool state given by its fields, with an empty call record. -/
def mkSys (maxConn openConn : Int) (cap : Nat) (buf : List ResourceAble) (f : Factory) : Sys :=
  { cp := { maxConn := wrap32 maxConn, openConn := wrap32 openConn, p := ⟨cap, buf⟩,
            factory := f },
    calls := 0, closed := [], probed := [] }

/-- What GetResource hands to its caller for a given result of getOrCreate: the
resource when it is non-nil and the error is nil, nothing otherwise. -/
def handed : ResourceAble × error → List ResId
  | (some id, none) => [id]
  | _ => []

/-- The bookkeeping invariant of an execution of a pool of capacity `m` with factory `f`. -/
structure Inv (m : int32) (f : Factory) (st : Run) : Prop where
  max_eq : st.sys.cp.maxConn = m
  fac_eq : st.sys.cp.factory = f
  cap_eq : st.sys.cp.p.cap = m.val.toNat
  tracked : (st.sys.cp.p.buf.length : Int) + st.out.length ≤ st.sys.cp.openConn.val
  le_max : st.sys.cp.openConn.val ≤ m.val

/-- A factory that hands out one and the same resource object on every call. -/
def sameFactory : Factory := fun _ => (some 0, none)

/-- The resource `r` is out of the pool's reach in state `s`: it is not idle, and the
factory does not return it from its next invocation on. -/
def Gone (r : ResId) (s : Sys) : Prop :=
  some r ∉ s.cp.p.buf ∧ ∀ k, s.calls ≤ k → (s.cp.factory k).1 ≠ some r

/-- A factory that returns a nil resource with a nil error on every call. -/
def nilFactory : Factory := fun _ => (none, none)

/-- A factory that fails twice and succeeds from its third call on. -/
def lateFactory : Factory := fun k =>
  if k < 2 then (none, some (ErrVal.other k)) else (some k, none)

/-- A factory that returns a resource together with an error on every call. -/
def bothFactory : Factory := fun k => (some k, some (ErrVal.other k))

/-- The number of calls that returned a nil error among the first `n` factory calls. -/
def successes (f : Factory) (n : Nat) : Nat :=
  (List.range n).countP (fun k => decide ((f k).2 = none))

/-- Exact bookkeeping of an execution: idle holds no nil entry, openConn counts the
idle and the checked-out resources, and openConn plus the number of Close calls is
the number of successful factory calls. -/
structure Exact (f : Factory) (st : Run) : Prop where
  no_nil : none ∉ st.sys.cp.p.buf
  total : st.sys.cp.openConn.val = (st.sys.cp.p.buf.length : Int) + st.out.length
  closes : st.sys.cp.openConn.val + st.sys.closed.length = successes f st.sys.calls

/-- A factory that never hands out the same resource twice: two successful calls
that return the same non-nil resource are the same call. -/
def FreshFactory (f : Factory) : Prop :=
  ∀ i j id, f i = (some id, none) → f j = (some id, none) → i = j

/-- How often the resource `id` occurs in idle, among the checked-out resources and
in the record of Close calls, taken together. -/
def copies (id : ResId) (st : Run) : Nat :=
  st.sys.cp.p.buf.count (some id) + st.out.count id + st.sys.closed.count id

/-- Every resource is in one place at most (idle, checked out, or closed), and
whatever is in one of these places was returned by a successful factory call. -/
structure Owned (f : Factory) (st : Run) : Prop where
  once : ∀ id, copies id st ≤ 1
  origin : ∀ id, 0 < copies id st → ∃ k, k < st.sys.calls ∧ f k = (some id, none)

/-! ## Arithmetic and the pre-warm loop -/

theorem wrap32_val (x : Int) (h : -2147483648 ≤ x ∧ x ≤ 2147483647) : (wrap32 x).val = x := by
  unfold wrap32
  simp only
  omega

theorem warmed_zero (f : Factory) (start : Nat) : warmed f start 0 = [] := by
  simp [warmed]

theorem warmed_succ_ok (f : Factory) (start n : Nat) (h : (f start).2 = none) :
    warmed f start (n + 1) = (f start).1 :: warmed f (start + 1) n := by
  simp [warmed, List.range'_succ, h]

theorem warmed_succ_err (f : Factory) (start n : Nat) (h : (f start).2 ≠ none) :
    warmed f start (n + 1) = warmed f (start + 1) n := by
  simp [warmed, List.range'_succ, h]

theorem warmed_length_le (f : Factory) (start n : Nat) : (warmed f start n).length ≤ n := by
  unfold warmed
  rw [List.length_map]
  exact (List.length_filter_le _ _).trans (by simp)

theorem prewarm_spec (n : Nat) : ∀ s : Sys,
    s.cp.p.buf.length + n ≤ s.cp.p.cap → 0 ≤ s.cp.openConn.val →
    s.cp.openConn.val + n ≤ 2147483647 →
    ∃ s1, prewarm n s = Outcome.ok s1 ∧ s1.calls = s.calls + n ∧
      s1.cp.maxConn = s.cp.maxConn ∧ s1.cp.factory = s.cp.factory ∧
      s1.cp.p.cap = s.cp.p.cap ∧
      s1.cp.p.buf = s.cp.p.buf ++ warmed s.cp.factory s.calls n ∧
      s1.cp.openConn.val = s.cp.openConn.val + (warmed s.cp.factory s.calls n).length ∧
      s1.closed = s.closed ∧ s1.probed = s.probed := by
  induction n with
  | zero =>
    intro s _ _ _
    exact ⟨s, rfl, by simp, rfl, rfl, rfl, by simp [warmed_zero], by simp [warmed_zero], rfl, rfl⟩
  | succ n ih =>
    intro s hcap h0 hhi
    by_cases he : (s.cp.factory s.calls).2 = none
    · have hsend : s.cp.p.send (s.cp.factory s.calls).1
          = some { s.cp.p with buf := s.cp.p.buf ++ [(s.cp.factory s.calls).1] } := by
        unfold Chan.send
        rw [if_pos (by omega)]
      have hw : (wrap32 (s.cp.openConn.val + 1)).val = s.cp.openConn.val + 1 :=
        wrap32_val _ ⟨by omega, by omega⟩
      obtain ⟨s1, h1, h2, h3, h4, h5, h6, h7, h8, h9⟩ := ih
        { s with calls := s.calls + 1,
                 cp := { s.cp with openConn := wrap32 (s.cp.openConn.val + 1),
                                   p := { s.cp.p with buf := s.cp.p.buf ++ [(s.cp.factory s.calls).1] } } }
        (by simp; omega) (by simp only [hw]; omega) (by simp only [hw]; omega)
      refine ⟨s1, ?_, ?_, h3, h4, h5, ?_, ?_, h8, h9⟩
      · rw [← h1]
        simp only [prewarm, he, if_true, hsend]
      · simp only at h2
        omega
      · rw [h6, warmed_succ_ok _ _ _ he]
        simp
      · rw [h7, warmed_succ_ok _ _ _ he]
        simp only [hw, List.length_cons]
        push_cast
        omega
    · obtain ⟨s1, h1, h2, h3, h4, h5, h6, h7, h8, h9⟩ := ih
        { s with calls := s.calls + 1 } (by simp; omega) h0 (by simp only; push_cast at hhi; omega)
      refine ⟨s1, ?_, ?_, h3, h4, h5, ?_, ?_, h8, h9⟩
      · rw [← h1]
        simp only [prewarm, he, if_false]
      · simp only at h2
        omega
      · rw [h6, warmed_succ_err _ _ _ he]
      · rw [h7, warmed_succ_err _ _ _ he]

/-- CreatePool with a non-negative capacity returns, and what it returns. -/
theorem CreatePool_spec (maxConn : int32) (factory : Factory) (h : 0 ≤ maxConn.val) :
    ∃ s, CreatePool maxConn factory = Outcome.ok s ∧
      s.calls = (maxConn.val / 2).toNat ∧
      s.cp.maxConn = maxConn ∧ s.cp.factory = factory ∧
      s.cp.p.cap = maxConn.val.toNat ∧
      s.cp.p.buf = warmed factory 0 (maxConn.val / 2).toNat ∧
      s.cp.openConn.val = (warmed factory 0 (maxConn.val / 2).toNat).length ∧
      s.closed = [] ∧ s.probed = [] := by
  have hm := maxConn.property
  have hdiv : Int.tdiv maxConn.val 2 = maxConn.val / 2 := by
    rw [Int.tdiv_eq_ediv h (by decide)]
  have hmk : makeChan maxConn.val = some ⟨maxConn.val.toNat, []⟩ := by
    unfold makeChan
    rw [if_neg (by omega)]
  have hz : (wrap32 0).val = 0 := wrap32_val 0 ⟨by omega, by omega⟩
  obtain ⟨s1, h1, h2, h3, h4, h5, h6, h7, h8, h9⟩ := prewarm_spec (maxConn.val / 2).toNat
    { cp := { maxConn := maxConn, openConn := wrap32 0, p := ⟨maxConn.val.toNat, []⟩,
              factory := factory },
      calls := 0, closed := [], probed := [] }
    (by simp only [List.length_nil]; omega) (by simp only [hz]; omega)
    (by simp only [hz]; omega)
  refine ⟨s1, ?_, ?_, h3, h4, h5, ?_, ?_, h8, h9⟩
  · unfold CreatePool
    rw [hmk, hdiv]
    exact h1
  · simpa using h2
  · simpa using h6
  · simp only [hz] at h7
    simpa using h7

theorem warmed_all_ok (f : Factory) (n : Nat) (hok : ∀ k, (f k).2 = none) :
    warmed f 0 n = (List.range n).map (fun k => (f k).1) := by
  unfold warmed
  rw [List.range_eq_range', List.filter_eq_self.mpr (by simp [hok])]

theorem warmed_length_countP (f : Factory) (n : Nat) :
    (warmed f 0 n).length = (List.range n).countP (fun k => decide ((f k).2 = none)) := by
  unfold warmed
  rw [List.length_map, List.range_eq_range', List.countP_eq_length_filter]

/-! ## The three cases of getOrCreate and the loop of GetResource -/

theorem getOrCreate_idle (s : Sys) (r : ResourceAble) (rest : List ResourceAble)
    (h : s.cp.p.buf = r :: rest) :
    getOrCreate s
      = ((r, none), { s with cp := { s.cp with p := { s.cp.p with buf := rest } } }) := by
  simp only [getOrCreate, h]

theorem getOrCreate_made (s : Sys) (h : s.cp.p.buf = [])
    (hlt : s.cp.openConn.val < s.cp.maxConn.val) (he : (s.cp.factory s.calls).2 = none) :
    getOrCreate s
      = (s.cp.factory s.calls,
         { s with calls := s.calls + 1,
                  cp := { s.cp with openConn := wrap32 (s.cp.openConn.val + 1) } }) := by
  simp only [getOrCreate, h, hlt, he, if_true]

theorem getOrCreate_failed (s : Sys) (h : s.cp.p.buf = [])
    (hlt : s.cp.openConn.val < s.cp.maxConn.val) (he : (s.cp.factory s.calls).2 ≠ none) :
    getOrCreate s = (s.cp.factory s.calls, { s with calls := s.calls + 1 }) := by
  simp only [getOrCreate, h, hlt, he, if_true, if_false]

theorem getOrCreate_full (s : Sys) (h : s.cp.p.buf = [])
    (hge : s.cp.maxConn.val ≤ s.cp.openConn.val) :
    getOrCreate s = ((none, TRY_AGAIN), s) := by
  have : ¬ s.cp.openConn.val < s.cp.maxConn.val := by omega
  simp only [getOrCreate, h, this, if_false]

theorem iter_snd (s : Sys) : (GetResource.iter s).2 = (getOrCreate s).2 := by
  unfold GetResource.iter
  simp only
  split
  · rfl
  · split <;> rfl

theorem iter_return (s : Sys) (id : ResId) (h : (getOrCreate s).1 = (some id, none)) :
    GetResource.iter s = (some (some id, none), (getOrCreate s).2) := by
  unfold GetResource.iter
  simp [h, TRY_AGAIN]

theorem iter_continue (s : Sys) (h : (getOrCreate s).1.2 ≠ none ∨ (getOrCreate s).1.1 = none) :
    GetResource.iter s = (none, (getOrCreate s).2) := by
  unfold GetResource.iter
  simp only
  split
  · rfl
  · rfl

theorem iter_fst_some (s : Sys) (res : ResourceAble × error)
    (h : (GetResource.iter s).1 = some res) :
    ∃ id, res = (some id, none) ∧ (getOrCreate s).1 = (some id, none) := by
  by_cases hc : (getOrCreate s).1.2 ≠ none ∨ (getOrCreate s).1.1 = none
  · rw [iter_continue s hc] at h
    cases h
  · push_neg at hc
    obtain ⟨he, hr⟩ := hc
    obtain ⟨id, hid⟩ := Option.ne_none_iff_exists'.mp hr
    have hg : (getOrCreate s).1 = (some id, none) := Prod.ext hid he
    rw [iter_return s id hg] at h
    exact ⟨id, by cases h; rfl, hg⟩

theorem GetResource_return (fuel : Nat) (s : Sys) (id : ResId)
    (h : (getOrCreate s).1 = (some id, none)) :
    GetResource (fuel + 1) s = some ((some id, none), (getOrCreate s).2) := by
  simp only [GetResource, iter_return s id h]

theorem GetResource_continue (fuel : Nat) (s : Sys)
    (h : (getOrCreate s).1.2 ≠ none ∨ (getOrCreate s).1.1 = none) :
    GetResource (fuel + 1) s = GetResource fuel (getOrCreate s).2 := by
  simp only [GetResource, iter_continue s h]

/-! ## The cases of ReleaseResource -/

theorem release_at_capacity (a : ResId → Bool) (r : ResId) (s : Sys)
    (h : s.cp.maxConn.val ≤ s.cp.openConn.val) :
    ReleaseResource a (some r) s
      = Outcome.ok { s with closed := s.closed ++ [r],
                            cp := { s.cp with openConn := wrap32 (s.cp.openConn.val - 1) } } := by
  simp only [ReleaseResource, h, if_true, closeResource]

theorem release_inactive (a : ResId → Bool) (r : ResId) (s : Sys)
    (h : s.cp.openConn.val < s.cp.maxConn.val) (ha : a r = false) :
    ReleaseResource a (some r) s
      = Outcome.ok { s with probed := s.probed ++ [r], closed := s.closed ++ [r],
                            cp := { s.cp with openConn := wrap32 (s.cp.openConn.val - 1) } } := by
  have : ¬ s.cp.maxConn.val ≤ s.cp.openConn.val := by omega
  simp only [ReleaseResource, this, if_false, ha, if_true, closeResource]

theorem release_put_back (a : ResId → Bool) (r : ResId) (s : Sys)
    (h : s.cp.openConn.val < s.cp.maxConn.val) (ha : a r = true)
    (hroom : s.cp.p.buf.length < s.cp.p.cap) :
    ReleaseResource a (some r) s
      = Outcome.ok { s with probed := s.probed ++ [r],
                            cp := { s.cp with p := { s.cp.p with buf := s.cp.p.buf ++ [some r] } } } := by
  have : ¬ s.cp.maxConn.val ≤ s.cp.openConn.val := by omega
  simp [ReleaseResource, this, ha, Chan.send, hroom]

theorem release_blocks (a : ResId → Bool) (r : ResId) (s : Sys)
    (h : s.cp.openConn.val < s.cp.maxConn.val) (ha : a r = true)
    (hfull : s.cp.p.cap ≤ s.cp.p.buf.length) :
    ReleaseResource a (some r) s = Outcome.blocked := by
  have : ¬ s.cp.maxConn.val ≤ s.cp.openConn.val := by omega
  have h2 : ¬ s.cp.p.buf.length < s.cp.p.cap := by omega
  simp [ReleaseResource, this, ha, Chan.send, h2]

/-! ## Construction -/

/-- C2, counterexample: a capacity of zero is not rejected; CreatePool returns a pool. -/
theorem CreatePool_zero_returns :
    (wrap32 0).val ≤ 0 ∧
    ∃ s, CreatePool (wrap32 0) freshFactory = Outcome.ok s ∧
      s.cp.openConn.val = 0 ∧ s.cp.p = ⟨0, []⟩ :=
  ⟨by decide, _, rfl, by decide, rfl⟩

/-- C2, amended: for a capacity that is not positive, CreatePool fails exactly when the
capacity is negative (the channel allocation panics); for capacity zero it returns a
pool with openConn 0 and an empty idle channel of capacity 0, without calling the
factory. -/
theorem CreatePool_nonpositive (maxConn : int32) (factory : Factory)
    (h : maxConn.val ≤ 0) :
    CreatePool maxConn factory =
      if maxConn.val < 0 then Outcome.panic
      else Outcome.ok { cp := { maxConn := maxConn, openConn := wrap32 0, p := ⟨0, []⟩,
                                factory := factory },
                        calls := 0, closed := [], probed := [] } := by
  by_cases hneg : maxConn.val < 0
  · rw [if_pos hneg]
    simp only [CreatePool, makeChan, if_pos hneg]
  · have hz : maxConn.val = 0 := by omega
    rw [if_neg hneg]
    simp [CreatePool, makeChan, hz, prewarm]

theorem CreatePool_nonpositive_witness :
    (wrap32 (-3)).val ≤ 0 ∧
    CreatePool (wrap32 (-3)) freshFactory =
      if (wrap32 (-3)).val < 0 then Outcome.panic
      else Outcome.ok { cp := { maxConn := wrap32 (-3), openConn := wrap32 0, p := ⟨0, []⟩,
                                factory := freshFactory },
                        calls := 0, closed := [], probed := [] } :=
  ⟨by decide, CreatePool_nonpositive (wrap32 (-3)) freshFactory (by decide)⟩

/-- C5: with a positive capacity and a factory that never fails, CreatePool calls
the factory exactly floor(maxConn/2) times and returns a pool with
openConn = floor(maxConn/2) whose idle channel holds exactly the results of those
calls, in call order; so openConn = size(idle), nothing is checked out, and nothing
has been closed. -/
theorem CreatePool_prewarm (maxConn : int32) (factory : Factory)
    (hpos : 0 < maxConn.val) (hok : ∀ k, (factory k).2 = none) :
    ∃ s, CreatePool maxConn factory = Outcome.ok s ∧
      (s.calls : Int) = maxConn.val / 2 ∧
      s.cp.openConn.val = maxConn.val / 2 ∧
      (s.cp.p.buf.length : Int) = maxConn.val / 2 ∧
      s.cp.p.buf = (List.range (maxConn.val / 2).toNat).map (fun k => (factory k).1) ∧
      s.closed = [] := by
  obtain ⟨s, h1, h2, _, _, _, h6, h7, h8, _⟩ :=
    CreatePool_spec maxConn factory (le_of_lt hpos)
  have hlen : (warmed factory 0 (maxConn.val / 2).toNat).length = (maxConn.val / 2).toNat := by
    rw [warmed_all_ok factory _ hok]
    simp
  have hnn : 0 ≤ maxConn.val / 2 := by omega
  refine ⟨s, h1, ?_, ?_, ?_, ?_, h8⟩
  · rw [h2]
    exact Int.toNat_of_nonneg hnn
  · rw [h7, hlen]
    exact Int.toNat_of_nonneg hnn
  · rw [h6, hlen]
    exact Int.toNat_of_nonneg hnn
  · rw [h6, warmed_all_ok factory _ hok]

theorem CreatePool_prewarm_witness :
    ∃ s, CreatePool (wrap32 10) freshFactory = Outcome.ok s ∧
      s.calls = 5 ∧ s.cp.openConn.val = 5 ∧ s.cp.p.buf.length = 5 ∧
      s.cp.p.buf = [some 0, some 1, some 2, some 3, some 4] ∧ s.closed = [] := by
  obtain ⟨s, h1, h2, h3, h4, h5, h6⟩ :=
    CreatePool_prewarm (wrap32 10) freshFactory (by decide) (fun _ => rfl)
  have hv : (wrap32 10).val / 2 = 5 := by decide
  rw [hv] at h2 h3 h4 h5
  refine ⟨s, h1, by exact_mod_cast h2, h3, by exact_mod_cast h4, ?_, h6⟩
  rw [h5]
  rfl

/-- C6: with a positive capacity and any factory, CreatePool returns a pool (no
factory error reaches the caller); openConn and size(idle) both equal the number
of successful calls among the floor(maxConn/2) pre-warm calls, so
0 ≤ openConn ≤ floor(maxConn/2). -/
theorem CreatePool_best_effort (maxConn : int32) (factory : Factory)
    (hpos : 0 < maxConn.val) :
    ∃ s, CreatePool maxConn factory = Outcome.ok s ∧
      (s.calls : Int) = maxConn.val / 2 ∧
      s.cp.openConn.val =
        ((List.range (maxConn.val / 2).toNat).countP
          (fun k => decide ((factory k).2 = none)) : Nat) ∧
      s.cp.p.buf.length =
        (List.range (maxConn.val / 2).toNat).countP
          (fun k => decide ((factory k).2 = none)) ∧
      0 ≤ s.cp.openConn.val ∧ s.cp.openConn.val ≤ maxConn.val / 2 := by
  obtain ⟨s, h1, h2, _, _, _, h6, h7, _, _⟩ :=
    CreatePool_spec maxConn factory (le_of_lt hpos)
  have hnn : 0 ≤ maxConn.val / 2 := by omega
  have hle := warmed_length_le factory 0 (maxConn.val / 2).toNat
  have htn := Int.toNat_of_nonneg hnn
  refine ⟨s, h1, ?_, ?_, ?_, ?_, ?_⟩
  · rw [h2]
    exact htn
  · rw [h7, warmed_length_countP]
  · rw [h6, warmed_length_countP]
  · rw [h7]
    omega
  · rw [h7]
    omega

theorem CreatePool_best_effort_witness :
    ∃ s, CreatePool (wrap32 10) flakyFactory = Outcome.ok s ∧
      s.calls = 5 ∧ s.cp.openConn.val = 3 ∧ s.cp.p.buf.length = 3 := by
  obtain ⟨s, h1, h2, h3, h4, _, _⟩ :=
    CreatePool_best_effort (wrap32 10) flakyFactory (by decide)
  have hv : (wrap32 10).val / 2 = 5 := by decide
  rw [hv] at h2 h3 h4
  have hc : (List.range (5 : Int).toNat).countP
      (fun k => decide ((flakyFactory k).2 = none)) = 3 := by decide
  rw [hc] at h3 h4
  exact ⟨s, h1, by exact_mod_cast h2, h3, h4⟩

/-! ## Acquire -/

/-- C7: in every pool state whose idle channel is not empty, getOrCreate takes the
oldest idle resource and returns it with a nil error; the factory is not called,
IsActive is not called (the result does not depend on any liveness at all), nothing
is closed, openConn is unchanged and size(idle) drops by exactly 1.  A non-nil
resource obtained this way is what GetResource returns. -/
theorem getOrCreate_from_idle (s : Sys) (h : s.cp.p.buf ≠ []) :
    ∃ r rest, s.cp.p.buf = r :: rest ∧
      (getOrCreate s).1 = (r, none) ∧
      (getOrCreate s).2.cp.p.buf = rest ∧
      (getOrCreate s).2.cp.p.buf.length + 1 = s.cp.p.buf.length ∧
      (getOrCreate s).2.cp.p.cap = s.cp.p.cap ∧
      (getOrCreate s).2.cp.openConn = s.cp.openConn ∧
      (getOrCreate s).2.cp.maxConn = s.cp.maxConn ∧
      (getOrCreate s).2.calls = s.calls ∧
      (getOrCreate s).2.probed = s.probed ∧
      (getOrCreate s).2.closed = s.closed ∧
      ∀ id, r = some id → ∀ fuel,
        GetResource (fuel + 1) s = some ((some id, none), (getOrCreate s).2) := by
  obtain ⟨r, rest, hb⟩ := List.exists_cons_of_ne_nil h
  have hg := getOrCreate_idle s r rest hb
  refine ⟨r, rest, hb, by rw [hg], by rw [hg], by rw [hg, hb]; rfl, by rw [hg], by rw [hg],
    by rw [hg], by rw [hg], by rw [hg], by rw [hg], ?_⟩
  intro id hid fuel
  exact GetResource_return fuel s id (by rw [hg, hid])

theorem getOrCreate_from_idle_witness :
    (mkSys 4 2 4 [some 7, some 8] freshFactory).cp.p.buf ≠ [] ∧
    ∃ r rest, (mkSys 4 2 4 [some 7, some 8] freshFactory).cp.p.buf = r :: rest ∧
      (getOrCreate (mkSys 4 2 4 [some 7, some 8] freshFactory)).1 = (r, none) ∧
      (getOrCreate (mkSys 4 2 4 [some 7, some 8] freshFactory)).2.cp.p.buf = rest := by
  refine ⟨by decide, ?_⟩
  obtain ⟨r, rest, h1, h2, h3, _⟩ :=
    getOrCreate_from_idle (mkSys 4 2 4 [some 7, some 8] freshFactory) (by decide)
  exact ⟨r, rest, h1, h2, h3⟩

/-- C8: in every pool state with an empty idle channel and openConn < maxConn,
getOrCreate calls the factory exactly once and returns what the factory returned.
If the factory returned a nil error, openConn grows by exactly 1 (idle stays empty)
and a non-nil resource is what GetResource returns.  If the factory returned an
error, openConn and idle are unchanged and GetResource goes round its loop again. -/
theorem getOrCreate_by_construction (s : Sys) (h : s.cp.p.buf = [])
    (hlt : s.cp.openConn.val < s.cp.maxConn.val) :
    (getOrCreate s).2.calls = s.calls + 1 ∧
    (getOrCreate s).1 = s.cp.factory s.calls ∧
    (getOrCreate s).2.cp.p = s.cp.p ∧
    (getOrCreate s).2.cp.maxConn = s.cp.maxConn ∧
    (getOrCreate s).2.closed = s.closed ∧
    (getOrCreate s).2.probed = s.probed ∧
    ((s.cp.factory s.calls).2 = none →
      (getOrCreate s).2.cp.openConn.val = s.cp.openConn.val + 1 ∧
      ∀ id, (s.cp.factory s.calls).1 = some id → ∀ fuel,
        GetResource (fuel + 1) s = some ((some id, none), (getOrCreate s).2)) ∧
    ((s.cp.factory s.calls).2 ≠ none →
      (getOrCreate s).2.cp.openConn = s.cp.openConn ∧
      (GetResource.iter s).1 = none ∧
      ∀ fuel, GetResource (fuel + 1) s = GetResource fuel (getOrCreate s).2) := by
  by_cases he : (s.cp.factory s.calls).2 = none
  · have hg := getOrCreate_made s h hlt he
    have hm := s.cp.maxConn.property
    have ho := s.cp.openConn.property
    refine ⟨by rw [hg], by rw [hg], by rw [hg], by rw [hg], by rw [hg], by rw [hg], ?_, ?_⟩
    · intro _
      refine ⟨?_, ?_⟩
      · rw [hg]
        exact wrap32_val _ ⟨by omega, by omega⟩
      · intro id hid fuel
        exact GetResource_return fuel s id (by rw [hg]; exact Prod.ext hid he)
    · intro hne
      exact absurd he hne
  · have hg := getOrCreate_failed s h hlt he
    refine ⟨by rw [hg], by rw [hg], by rw [hg], by rw [hg], by rw [hg], by rw [hg], ?_, ?_⟩
    · intro hn
      exact absurd hn he
    · intro _
      have hc : (getOrCreate s).1.2 ≠ none ∨ (getOrCreate s).1.1 = none := by
        left
        rw [hg]
        exact he
      refine ⟨by rw [hg], by rw [iter_continue s hc], ?_⟩
      intro fuel
      exact GetResource_continue fuel s hc

theorem getOrCreate_by_construction_witness :
    (mkSys 4 2 4 [] flakyFactory).cp.p.buf = [] ∧
    (mkSys 4 2 4 [] flakyFactory).cp.openConn.val < (mkSys 4 2 4 [] flakyFactory).cp.maxConn.val ∧
    (getOrCreate (mkSys 4 2 4 [] flakyFactory)).2.calls = 0 + 1 ∧
    (getOrCreate (mkSys 4 2 4 [] flakyFactory)).1 = flakyFactory 0 :=
  ⟨rfl, by decide,
   (getOrCreate_by_construction (mkSys 4 2 4 [] flakyFactory) rfl (by decide)).1,
   (getOrCreate_by_construction (mkSys 4 2 4 [] flakyFactory) rfl (by decide)).2.1⟩

/-- C9: in every pool state with an empty idle channel and openConn ≥ maxConn,
getOrCreate returns a nil resource with TRY_AGAIN and leaves the whole state as it was
(no factory call, openConn and idle unchanged); the loop of GetResource continues on
that signal, so GetResource returns nothing, in particular no error, however long it
runs in that state. -/
theorem getOrCreate_at_capacity (s : Sys) (h : s.cp.p.buf = [])
    (hge : s.cp.maxConn.val ≤ s.cp.openConn.val) :
    getOrCreate s = ((none, TRY_AGAIN), s) ∧
    GetResource.iter s = (none, s) ∧
    ∀ fuel, GetResource fuel s = none := by
  have hg := getOrCreate_full s h hge
  have hc : (getOrCreate s).1.2 ≠ none ∨ (getOrCreate s).1.1 = none := by
    right
    rw [hg]
  have hi : GetResource.iter s = (none, s) := by
    rw [iter_continue s hc, hg]
  refine ⟨hg, hi, ?_⟩
  intro fuel
  induction fuel with
  | zero => rfl
  | succ n ih => simp only [GetResource, hi, ih]

theorem getOrCreate_at_capacity_witness :
    (mkSys 4 4 4 [] freshFactory).cp.p.buf = [] ∧
    (mkSys 4 4 4 [] freshFactory).cp.maxConn.val ≤ (mkSys 4 4 4 [] freshFactory).cp.openConn.val ∧
    getOrCreate (mkSys 4 4 4 [] freshFactory)
      = ((none, TRY_AGAIN), mkSys 4 4 4 [] freshFactory) :=
  ⟨rfl, by decide, (getOrCreate_at_capacity (mkSys 4 4 4 [] freshFactory) rfl (by decide)).1⟩

/-! ## Release -/

/-- C4, counterexample: the rule does not hold in every pool state.  (1) After
CreatePool(2) and a release of a resource that was never checked out, the idle channel
is full while openConn < maxConn; releasing an active resource then blocks instead of
appending it.  (2) With openConn at the int32 minimum, closing wraps openConn around
to the int32 maximum instead of decreasing it by 1. -/
theorem release_rule_not_universal :
    (∃ s0 s1, CreatePool (wrap32 2) freshFactory = Outcome.ok s0 ∧
      ReleaseResource (fun _ => true) (some 7) s0 = Outcome.ok s1 ∧
      ¬ (s1.cp.maxConn.val ≤ s1.cp.openConn.val) ∧
      ReleaseResource (fun _ => true) (some 8) s1 = Outcome.blocked) ∧
    (∃ s1, ReleaseResource (fun _ => false) (some 7)
        (mkSys 4 (-2147483648) 4 [] freshFactory) = Outcome.ok s1 ∧
      s1.cp.openConn.val = 2147483647) :=
  ⟨⟨_, _, rfl, rfl, by decide, rfl⟩, ⟨_, rfl, by decide⟩⟩

/-- C4, amended: for every pool state and non-nil resource r.  If openConn ≥ maxConn
or r is not active, Close is called on r exactly once, idle is unchanged, and,
provided openConn is above the int32 minimum, openConn decreases by exactly 1.
Otherwise, if the idle channel has room, r is appended to idle, openConn is unchanged
and Close is not called; if the idle channel is full, the call blocks. -/
theorem release_rule (a : ResId → Bool) (r : ResId) (s : Sys) :
    (s.cp.maxConn.val ≤ s.cp.openConn.val ∨ a r = false →
      ∃ s1, ReleaseResource a (some r) s = Outcome.ok s1 ∧
        s1.closed = s.closed ++ [r] ∧ s1.cp.p = s.cp.p ∧
        s1.cp.maxConn = s.cp.maxConn ∧ s1.calls = s.calls ∧
        (-2147483648 < s.cp.openConn.val →
          s1.cp.openConn.val = s.cp.openConn.val - 1)) ∧
    (¬ (s.cp.maxConn.val ≤ s.cp.openConn.val ∨ a r = false) →
      (s.cp.p.buf.length < s.cp.p.cap →
        ∃ s1, ReleaseResource a (some r) s = Outcome.ok s1 ∧
          s1.cp.p.buf = s.cp.p.buf ++ [some r] ∧ s1.cp.p.cap = s.cp.p.cap ∧
          s1.cp.openConn = s.cp.openConn ∧ s1.cp.maxConn = s.cp.maxConn ∧
          s1.closed = s.closed ∧ s1.calls = s.calls) ∧
      (s.cp.p.cap ≤ s.cp.p.buf.length →
        ReleaseResource a (some r) s = Outcome.blocked)) := by
  have ho := s.cp.openConn.property
  constructor
  · intro h
    by_cases hcap : s.cp.maxConn.val ≤ s.cp.openConn.val
    · refine ⟨_, release_at_capacity a r s hcap, rfl, rfl, rfl, rfl, ?_⟩
      intro hmin
      exact wrap32_val _ ⟨by omega, by omega⟩
    · have ha : a r = false := h.resolve_left hcap
      refine ⟨_, release_inactive a r s (by omega) ha, rfl, rfl, rfl, rfl, ?_⟩
      intro hmin
      exact wrap32_val _ ⟨by omega, by omega⟩
  · intro h
    push_neg at h
    obtain ⟨hlt, ha⟩ := h
    have ha1 : a r = true := by simpa using ha
    constructor
    · intro hroom
      exact ⟨_, release_put_back a r s hlt ha1 hroom, rfl, rfl, rfl, rfl, rfl, rfl⟩
    · intro hfull
      exact release_blocks a r s hlt ha1 hfull

theorem release_rule_witness :
    (∃ s1, ReleaseResource (fun _ => false) (some 7) (mkSys 4 2 4 [some 1] freshFactory)
        = Outcome.ok s1 ∧
      s1.closed = [7] ∧ s1.cp.p.buf = [some 1] ∧ s1.cp.openConn.val = 1) ∧
    (∃ s1, ReleaseResource (fun _ => true) (some 7) (mkSys 4 2 4 [some 1] freshFactory)
        = Outcome.ok s1 ∧
      s1.cp.p.buf = [some 1, some 7] ∧ s1.cp.openConn.val = 2 ∧ s1.closed = []) := by
  constructor
  · obtain ⟨s1, h1, h2, h3, _, _, h6⟩ :=
      (release_rule (fun _ => false) 7 (mkSys 4 2 4 [some 1] freshFactory)).1 (Or.inr rfl)
    refine ⟨s1, h1, h2, by rw [h3]; rfl, ?_⟩
    rw [h6 (by decide)]
    decide
  · obtain ⟨s1, h1, h2, _, h4, _, h6, _⟩ :=
      ((release_rule (fun _ => true) 7 (mkSys 4 2 4 [some 1] freshFactory)).2
        (by decide)).1 (by decide)
    refine ⟨s1, h1, h2, ?_, h6⟩
    rw [h4]
    decide

/-! ## The bookkeeping invariant along executions -/

theorem handed_nil (res : ResourceAble × error) (h : res.2 ≠ none ∨ res.1 = none) :
    handed res = [] := by
  obtain ⟨r, e⟩ := res
  cases r with
  | none => rfl
  | some id =>
    cases e with
    | none => simp at h
    | some e => rfl

theorem handed_length_le (res : ResourceAble × error) : (handed res).length ≤ 1 := by
  obtain ⟨r, e⟩ := res
  cases r <;> cases e <;> simp [handed]

theorem getOrCreate_frame (s : Sys) :
    (getOrCreate s).2.cp.maxConn = s.cp.maxConn ∧
    (getOrCreate s).2.cp.factory = s.cp.factory ∧
    (getOrCreate s).2.cp.p.cap = s.cp.p.cap ∧
    (getOrCreate s).2.closed = s.closed ∧
    (getOrCreate s).2.probed = s.probed := by
  cases hb : s.cp.p.buf with
  | cons r rest =>
    rw [getOrCreate_idle s r rest hb]
    exact ⟨rfl, rfl, rfl, rfl, rfl⟩
  | nil =>
    by_cases hlt : s.cp.openConn.val < s.cp.maxConn.val
    · by_cases he : (s.cp.factory s.calls).2 = none
      · rw [getOrCreate_made s hb hlt he]
        exact ⟨rfl, rfl, rfl, rfl, rfl⟩
      · rw [getOrCreate_failed s hb hlt he]
        exact ⟨rfl, rfl, rfl, rfl, rfl⟩
    · rw [getOrCreate_full s hb (by omega)]
      exact ⟨rfl, rfl, rfl, rfl, rfl⟩

theorem getOrCreate_bookkeeping (s : Sys) (hle : s.cp.openConn.val ≤ s.cp.maxConn.val) :
    ((getOrCreate s).2.cp.p.buf.length : Int) + (handed (getOrCreate s).1).length
        + s.cp.openConn.val
      ≤ (getOrCreate s).2.cp.openConn.val + s.cp.p.buf.length ∧
    (getOrCreate s).2.cp.openConn.val ≤ s.cp.maxConn.val := by
  have hm := s.cp.maxConn.property
  have ho := s.cp.openConn.property
  cases hb : s.cp.p.buf with
  | cons r rest =>
    rw [getOrCreate_idle s r rest hb]
    have := handed_length_le (r, none)
    simp only [List.length_cons]
    push_cast
    omega
  | nil =>
    by_cases hlt : s.cp.openConn.val < s.cp.maxConn.val
    · by_cases he : (s.cp.factory s.calls).2 = none
      · rw [getOrCreate_made s hb hlt he]
        have := handed_length_le (s.cp.factory s.calls)
        have hw : (wrap32 (s.cp.openConn.val + 1)).val = s.cp.openConn.val + 1 :=
          wrap32_val _ ⟨by omega, by omega⟩
        simp only [hw, hb, List.length_nil]
        push_cast
        omega
      · rw [getOrCreate_failed s hb hlt he, handed_nil _ (Or.inl he)]
        simp only [hb, List.length_nil]
        push_cast
        omega
    · rw [getOrCreate_full s hb (by omega), handed_nil _ (Or.inr rfl)]
      simp only [hb, List.length_nil]
      push_cast
      omega

theorem step_attempt (st : Run) :
    st.step Op.attempt
      = some ⟨(getOrCreate st.sys).2, handed (getOrCreate st.sys).1 ++ st.out⟩ := by
  by_cases hc : (getOrCreate st.sys).1.2 ≠ none ∨ (getOrCreate st.sys).1.1 = none
  · simp only [Run.step, iter_continue st.sys hc, handed_nil _ hc, List.nil_append]
  · push_neg at hc
    obtain ⟨he, hr⟩ := hc
    obtain ⟨id, hid⟩ := Option.ne_none_iff_exists'.mp hr
    have hg : (getOrCreate st.sys).1 = (some id, none) := Prod.ext hid he
    simp only [Run.step, iter_return st.sys id hg, hg, handed, List.singleton_append]

theorem Inv_init (m : int32) (f : Factory) (h : 0 ≤ m.val) (s : Sys)
    (hc : CreatePool m f = Outcome.ok s) : Inv m f ⟨s, []⟩ := by
  obtain ⟨s1, h1, _, h3, h4, h5, h6, h7, _, _⟩ := CreatePool_spec m f h
  rw [hc] at h1
  cases h1
  have hle := warmed_length_le f 0 (m.val / 2).toNat
  have hnn : 0 ≤ m.val / 2 := by omega
  have htn := Int.toNat_of_nonneg hnn
  refine ⟨h3, h4, h5, ?_, ?_⟩
  · simp only [h6, h7, List.length_nil]
    push_cast
    omega
  · rw [h7]
    omega

theorem Inv_attempt (m : int32) (f : Factory) (st : Run) (hinv : Inv m f st) :
    Inv m f ⟨(getOrCreate st.sys).2, handed (getOrCreate st.sys).1 ++ st.out⟩ := by
  obtain ⟨h1, h2, h3, h4, h5⟩ := hinv
  obtain ⟨f1, f2, f3, _, _⟩ := getOrCreate_frame st.sys
  obtain ⟨b1, b2⟩ := getOrCreate_bookkeeping st.sys (by rw [h1]; exact h5)
  refine ⟨f1.trans h1, f2.trans h2, f3.trans h3, ?_, ?_⟩
  · simp only [List.length_append]
    push_cast
    omega
  · rw [← h1]
    exact b2

/-- In an execution that satisfies the invariant, the release of a checked-out
resource returns (it neither panics nor blocks) and keeps the invariant. -/
theorem Inv_release (m : int32) (f : Factory) (st : Run) (hinv : Inv m f st)
    (r : ResId) (hr : r ∈ st.out) (a : ResId → Bool) :
    ∃ s1, ReleaseResource a (some r) st.sys = Outcome.ok s1 ∧
      Inv m f ⟨s1, st.out.erase r⟩ ∧ s1.calls = st.sys.calls := by
  obtain ⟨h1, h2, h3, h4, h5⟩ := hinv
  have hm := m.property
  have hpos : 0 < st.out.length := List.length_pos_of_mem hr
  have hlen : (st.out.erase r).length = st.out.length - 1 := List.length_erase_of_mem hr
  have hw : (wrap32 (st.sys.cp.openConn.val - 1)).val = st.sys.cp.openConn.val - 1 :=
    wrap32_val _ ⟨by omega, by omega⟩
  by_cases hcap : st.sys.cp.maxConn.val ≤ st.sys.cp.openConn.val
  · refine ⟨_, release_at_capacity a r st.sys hcap, ⟨h1, h2, h3, ?_, ?_⟩, rfl⟩
    · simp only [hw, hlen]
      omega
    · simp only [hw]
      omega
  · by_cases ha : a r = false
    · refine ⟨_, release_inactive a r st.sys (by omega) ha, ⟨h1, h2, h3, ?_, ?_⟩, rfl⟩
      · simp only [hw, hlen]
        omega
      · simp only [hw]
        omega
    · have ha1 : a r = true := by simpa using ha
      have hroom : st.sys.cp.p.buf.length < st.sys.cp.p.cap := by
        rw [h3]
        rw [h1] at hcap
        omega
      refine ⟨_, release_put_back a r st.sys (by omega) ha1 hroom, ⟨h1, h2, h3, ?_, h5⟩, rfl⟩
      simp only [hlen, List.length_append, List.length_singleton]
      push_cast
      omega

theorem Inv_step (m : int32) (f : Factory) (st st1 : Run) (op : Op) (hinv : Inv m f st)
    (hs : st.step op = some st1) : Inv m f st1 := by
  cases op with
  | attempt =>
    rw [step_attempt] at hs
    cases hs
    exact Inv_attempt m f st hinv
  | release r alive =>
    by_cases hr : r ∈ st.out
    · obtain ⟨s1, e1, i1, _⟩ := Inv_release m f st hinv r hr (fun _ => alive)
      simp only [Run.step, hr, if_true, e1] at hs
      cases hs
      exact i1
    · simp only [Run.step, hr, if_false] at hs
      cases hs

theorem Inv_exec (m : int32) (f : Factory) (ops : List Op) :
    ∀ st st1 : Run, Inv m f st → Run.exec st ops = some st1 → Inv m f st1 := by
  induction ops with
  | nil =>
    intro st st1 hinv he
    simp only [Run.exec] at he
    cases he
    exact hinv
  | cons op ops ih =>
    intro st st1 hinv he
    cases hs : st.step op with
    | none => simp only [Run.exec, hs] at he; cases he
    | some st2 =>
      simp only [Run.exec, hs] at he
      exact ih st2 st1 (Inv_step m f st st2 op hinv hs) he

/-- C1: a pool built by CreatePool with maxConn > 0 exists, and in every state reached
from it by a finite sequence of acquire attempts and releases of checked-out
resources, 0 ≤ openConn ≤ maxConn and size(idle) ≤ openConn; the resources held by
the pool and by its callers together never number more than maxConn; and from every
such state a release of a checked-out resource returns, so that the sequences range
over all interleavings. -/
theorem pool_invariant (maxConn : int32) (factory : Factory) (hpos : 0 < maxConn.val) :
    ∃ s0, CreatePool maxConn factory = Outcome.ok s0 ∧
      ∀ ops st, Run.exec ⟨s0, []⟩ ops = some st →
        st.sys.cp.maxConn = maxConn ∧
        0 ≤ st.sys.cp.openConn.val ∧
        st.sys.cp.openConn.val ≤ maxConn.val ∧
        (st.sys.cp.p.buf.length : Int) ≤ st.sys.cp.openConn.val ∧
        (st.sys.cp.p.buf.length : Int) + st.out.length ≤ maxConn.val ∧
        ∀ r ∈ st.out, ∀ alive, (st.step (Op.release r alive)).isSome = true := by
  obtain ⟨s0, h0, _⟩ := CreatePool_spec maxConn factory (le_of_lt hpos)
  refine ⟨s0, h0, ?_⟩
  intro ops st he
  have hinv := Inv_exec maxConn factory ops _ st
    (Inv_init maxConn factory (le_of_lt hpos) s0 h0) he
  obtain ⟨h1, h2, h3, h4, h5⟩ := hinv
  refine ⟨h1, by omega, h5, by omega, by omega, ?_⟩
  intro r hr alive
  obtain ⟨s1, e1, _, _⟩ := Inv_release maxConn factory st ⟨h1, h2, h3, h4, h5⟩ r hr
    (fun _ => alive)
  simp only [Run.step, hr, if_true, e1, Option.isSome_some]

theorem pool_invariant_witness :
    ∃ s0 st, CreatePool (wrap32 2) freshFactory = Outcome.ok s0 ∧
      Run.exec ⟨s0, []⟩
        [Op.attempt, Op.attempt, Op.attempt, Op.release 0 true, Op.release 1 false]
        = some st ∧
      st.sys.closed = [0, 1] ∧ st.out = [] ∧
      0 ≤ st.sys.cp.openConn.val ∧
      st.sys.cp.openConn.val ≤ (wrap32 2).val ∧
      (st.sys.cp.p.buf.length : Int) ≤ st.sys.cp.openConn.val := by
  obtain ⟨s0, h0, h⟩ := pool_invariant (wrap32 2) freshFactory (by decide)
  have e0 : CreatePool (wrap32 2) freshFactory = Outcome.ok _ := rfl
  rw [e0] at h0
  cases h0
  obtain ⟨_, h2, h3, h4, _, _⟩ :=
    h [Op.attempt, Op.attempt, Op.attempt, Op.release 0 true, Op.release 1 false] _ rfl
  exact ⟨_, _, rfl, rfl, rfl, rfl, h2, h3, h4⟩

/-! ## Reuse -/

theorem GetResource_frame (fuel : Nat) : ∀ (s : Sys) (res : ResourceAble × error) (s1 : Sys),
    GetResource fuel s = some (res, s1) →
    s1.cp.maxConn = s.cp.maxConn ∧ s1.cp.factory = s.cp.factory ∧
    s1.cp.p.cap = s.cp.p.cap := by
  induction fuel with
  | zero =>
    intro s res s1 h
    simp only [GetResource] at h
    cases h
  | succ n ih =>
    intro s res s1 h
    obtain ⟨f1, f2, f3, _, _⟩ := getOrCreate_frame s
    by_cases hc : (getOrCreate s).1.2 ≠ none ∨ (getOrCreate s).1.1 = none
    · rw [GetResource_continue n s hc] at h
      obtain ⟨g1, g2, g3⟩ := ih _ res s1 h
      exact ⟨g1.trans f1, g2.trans f2, g3.trans f3⟩
    · push_neg at hc
      obtain ⟨he, hr⟩ := hc
      obtain ⟨id, hid⟩ := Option.ne_none_iff_exists'.mp hr
      rw [GetResource_return n s id (Prod.ext hid he)] at h
      cases h
      exact ⟨f1, f2, f3⟩

/-- C3, counterexample: (1) with two resources idle, the resource released is queued
behind the other one, and the next GetResource returns the other one; (2) with
maxConn = 1 the pool is at capacity while its only resource is checked out, the
release closes it, and the next GetResource returns a newly made resource. -/
theorem reuse_not_universal :
    (∃ s0 s1 s2 s3, CreatePool (wrap32 4) freshFactory = Outcome.ok s0 ∧
      GetResource 1 s0 = some ((some 0, none), s1) ∧
      ReleaseResource (fun _ => true) (some 0) s1 = Outcome.ok s2 ∧
      GetResource 1 s2 = some ((some 1, none), s3) ∧
      (some 1 : ResourceAble) ≠ some 0) ∧
    (∃ s0 s1 s2 s3, CreatePool (wrap32 1) freshFactory = Outcome.ok s0 ∧
      GetResource 1 s0 = some ((some 0, none), s1) ∧
      ReleaseResource (fun _ => true) (some 0) s1 = Outcome.ok s2 ∧
      s2.closed = [0] ∧
      GetResource 1 s2 = some ((some 1, none), s3)) :=
  ⟨⟨_, _, _, _, rfl, rfl, rfl, rfl, by decide⟩, ⟨_, _, _, _, rfl, rfl, rfl, rfl, rfl⟩⟩

/-- C3, amended: in every state reached from a pool built with maxConn > 0, if
GetResource returns r and, at the time r is released while active, the idle channel
is empty and openConn < maxConn, then the release returns and the next GetResource
returns the same r. -/
theorem reuse_when_alone (maxConn : int32) (factory : Factory) (hpos : 0 < maxConn.val)
    (s0 : Sys) (hc : CreatePool maxConn factory = Outcome.ok s0)
    (ops : List Op) (st : Run) (he : Run.exec ⟨s0, []⟩ ops = some st)
    (fuel : Nat) (r : ResId) (s1 : Sys)
    (hg : GetResource fuel st.sys = some ((some r, none), s1))
    (hidle : s1.cp.p.buf = []) (hlt : s1.cp.openConn.val < s1.cp.maxConn.val)
    (a : ResId → Bool) (ha : a r = true) :
    ∃ s2, ReleaseResource a (some r) s1 = Outcome.ok s2 ∧
      s2.closed = s1.closed ∧
      ∀ fuel2, ∃ s3, GetResource (fuel2 + 1) s2 = some ((some r, none), s3) := by
  obtain ⟨h1, _, h3, _, _⟩ := Inv_exec maxConn factory ops _ st
    (Inv_init maxConn factory (le_of_lt hpos) s0 hc) he
  obtain ⟨g1, _, g3⟩ := GetResource_frame fuel st.sys _ s1 hg
  have hroom : s1.cp.p.buf.length < s1.cp.p.cap := by
    rw [hidle, g3, h3]
    simp only [List.length_nil]
    omega
  refine ⟨_, release_put_back a r s1 hlt ha hroom, rfl, ?_⟩
  intro fuel2
  refine ⟨_, GetResource_return fuel2 _ r ?_⟩
  rw [getOrCreate_idle _ (some r) [] (by simp only [hidle, List.nil_append])]

theorem reuse_when_alone_witness :
    ∃ s0 s1 s2, CreatePool (wrap32 2) freshFactory = Outcome.ok s0 ∧
      GetResource 1 s0 = some ((some 0, none), s1) ∧
      ReleaseResource (fun _ => true) (some 0) s1 = Outcome.ok s2 ∧
      ∀ fuel2, ∃ s3, GetResource (fuel2 + 1) s2 = some ((some 0, none), s3) := by
  obtain ⟨s2, h1, _, h3⟩ :=
    reuse_when_alone (wrap32 2) freshFactory (by decide) _ rfl [] _ rfl 1 0 _ rfl rfl
      (by decide) (fun _ => true) rfl
  exact ⟨_, _, s2, rfl, rfl, h1, h3⟩

/-! ## Discarding an inactive resource -/

theorem Gone_getOrCreate (r : ResId) (s : Sys) (h : Gone r s) :
    (getOrCreate s).1.1 ≠ some r ∧ Gone r (getOrCreate s).2 := by
  obtain ⟨hb, hf⟩ := h
  cases hbuf : s.cp.p.buf with
  | cons x rest =>
    rw [getOrCreate_idle s x rest hbuf]
    rw [hbuf] at hb
    refine ⟨?_, ?_, hf⟩
    · intro hx
      exact hb (by simp only at hx; rw [hx]; exact List.mem_cons_self _ _)
    · intro hm
      exact hb (List.mem_cons_of_mem _ hm)
  | nil =>
    by_cases hlt : s.cp.openConn.val < s.cp.maxConn.val
    · by_cases he : (s.cp.factory s.calls).2 = none
      · rw [getOrCreate_made s hbuf hlt he]
        exact ⟨hf _ (le_refl _), hb, fun k hk => hf k (by simp only at hk; omega)⟩
      · rw [getOrCreate_failed s hbuf hlt he]
        exact ⟨hf _ (le_refl _), hb, fun k hk => hf k (by simp only at hk; omega)⟩
    · rw [getOrCreate_full s hbuf (by omega)]
      exact ⟨by simp, hb, hf⟩

theorem Gone_GetResource (r : ResId) (fuel : Nat) :
    ∀ (s : Sys) (res : ResourceAble × error) (s1 : Sys), Gone r s →
      GetResource fuel s = some (res, s1) → res.1 ≠ some r ∧ Gone r s1 := by
  induction fuel with
  | zero =>
    intro s res s1 _ h
    simp only [GetResource] at h
    cases h
  | succ n ih =>
    intro s res s1 hgone h
    obtain ⟨g1, g2⟩ := Gone_getOrCreate r s hgone
    by_cases hc : (getOrCreate s).1.2 ≠ none ∨ (getOrCreate s).1.1 = none
    · rw [GetResource_continue n s hc] at h
      exact ih _ res s1 g2 h
    · push_neg at hc
      obtain ⟨he, hr⟩ := hc
      obtain ⟨id, hid⟩ := Option.ne_none_iff_exists'.mp hr
      rw [GetResource_return n s id (Prod.ext hid he)] at h
      cases h
      rw [hid] at g1
      exact ⟨g1, g2⟩

theorem release_ok_shape (a : ResId → Bool) (r : ResId) (s s1 : Sys)
    (h : ReleaseResource a (some r) s = Outcome.ok s1) :
    s1.calls = s.calls ∧ s1.cp.factory = s.cp.factory ∧
    (s1.cp.p.buf = s.cp.p.buf ∨ s1.cp.p.buf = s.cp.p.buf ++ [some r]) := by
  by_cases hcap : s.cp.maxConn.val ≤ s.cp.openConn.val
  · rw [release_at_capacity a r s hcap] at h
    cases h
    exact ⟨rfl, rfl, Or.inl rfl⟩
  · by_cases ha : a r = false
    · rw [release_inactive a r s (by omega) ha] at h
      cases h
      exact ⟨rfl, rfl, Or.inl rfl⟩
    · have ha1 : a r = true := by simpa using ha
      by_cases hroom : s.cp.p.buf.length < s.cp.p.cap
      · rw [release_put_back a r s (by omega) ha1 hroom] at h
        cases h
        exact ⟨rfl, rfl, Or.inr rfl⟩
      · rw [release_blocks a r s (by omega) ha1 (by omega)] at h
        cases h

theorem Gone_release (r q : ResId) (hq : q ≠ r) (a : ResId → Bool) (s s1 : Sys)
    (hgone : Gone r s) (h : ReleaseResource a (some q) s = Outcome.ok s1) : Gone r s1 := by
  obtain ⟨hb, hf⟩ := hgone
  obtain ⟨e1, e2, e3⟩ := release_ok_shape a q s s1 h
  refine ⟨?_, ?_⟩
  · rcases e3 with e3 | e3
    · rw [e3]
      exact hb
    · rw [e3]
      intro hm
      rcases List.mem_append.mp hm with hm | hm
      · exact hb hm
      · simp only [List.mem_singleton, Option.some.injEq] at hm
        exact hq hm.symm
  · intro k hk
    rw [e2]
    exact hf k (by omega)

theorem Gone_step (r : ResId) (st st1 : Run) (op : Op) (hgone : Gone r st.sys)
    (hop : ∀ b, op ≠ Op.release r b) (hs : st.step op = some st1) : Gone r st1.sys := by
  cases op with
  | attempt =>
    rw [step_attempt] at hs
    cases hs
    exact (Gone_getOrCreate r st.sys hgone).2
  | release q alive =>
    have hq : q ≠ r := by
      intro e
      exact hop alive (by rw [e])
    by_cases hmem : q ∈ st.out
    · cases hrel : ReleaseResource (fun _ => alive) (some q) st.sys with
      | ok s1 =>
        simp only [Run.step, hmem, if_true, hrel] at hs
        cases hs
        exact Gone_release r q hq _ st.sys s1 hgone hrel
      | panic => simp only [Run.step, hmem, if_true, hrel] at hs; cases hs
      | blocked => simp only [Run.step, hmem, if_true, hrel] at hs; cases hs
    · simp only [Run.step, hmem, if_false] at hs
      cases hs

theorem Gone_exec (r : ResId) (ops : List Op) :
    ∀ st st1 : Run, Gone r st.sys → (∀ b, Op.release r b ∉ ops) →
      Run.exec st ops = some st1 → Gone r st1.sys := by
  induction ops with
  | nil =>
    intro st st1 hgone _ he
    simp only [Run.exec] at he
    cases he
    exact hgone
  | cons op ops ih =>
    intro st st1 hgone hno he
    cases hs : st.step op with
    | none => simp only [Run.exec, hs] at he; cases he
    | some st2 =>
      simp only [Run.exec, hs] at he
      have hop : ∀ b, op ≠ Op.release r b := by
        intro b e
        exact hno b (by rw [e]; exact List.mem_cons_self _ _)
      exact ih st2 st1 (Gone_step r st st2 op hgone hop hs)
        (fun b hm => hno b (List.mem_cons_of_mem _ hm)) he

/-- C10, counterexample: with a factory that hands out the same resource object on
every call, the resource closed by the release of an inactive resource is returned
again by the very next GetResource. -/
theorem discard_not_final :
    ∃ s0 st s1 s2, CreatePool (wrap32 2) sameFactory = Outcome.ok s0 ∧
      Run.exec ⟨s0, []⟩ [Op.attempt] = some st ∧
      st.out = [0] ∧
      ReleaseResource (fun _ => false) (some 0) st.sys = Outcome.ok s1 ∧
      s1.closed = [0] ∧ s1.cp.p.buf = [] ∧
      GetResource 1 s1 = some ((some 0, none), s2) :=
  ⟨_, _, _, _, rfl, rfl, rfl, rfl, rfl, rfl, rfl⟩

/-- C10, amended: in every state reached from a pool built with maxConn > 0, the
release of a checked-out resource r that is not active returns, calls Close on r,
decreases openConn by exactly 1 and leaves idle as it was (r is not put in it).  If
moreover r is not at the same time held in idle and the factory does not return r
again, then after any further steps that do not release r again, r is not idle and
no GetResource returns r. -/
theorem discard_on_inactive (maxConn : int32) (factory : Factory) (hpos : 0 < maxConn.val)
    (s0 : Sys) (hc : CreatePool maxConn factory = Outcome.ok s0)
    (ops : List Op) (st : Run) (he : Run.exec ⟨s0, []⟩ ops = some st)
    (r : ResId) (hr : r ∈ st.out) (a : ResId → Bool) (ha : a r = false) :
    ∃ s1, ReleaseResource a (some r) st.sys = Outcome.ok s1 ∧
      s1.closed = st.sys.closed ++ [r] ∧
      s1.cp.openConn.val = st.sys.cp.openConn.val - 1 ∧
      s1.cp.p = st.sys.cp.p ∧
      (some r ∉ st.sys.cp.p.buf →
       (∀ k, st.sys.calls ≤ k → (factory k).1 ≠ some r) →
        ∀ ops1 st1, (∀ b, Op.release r b ∉ ops1) →
          Run.exec ⟨s1, st.out.erase r⟩ ops1 = some st1 →
          some r ∉ st1.sys.cp.p.buf ∧
          ∀ fuel res s2, GetResource fuel st1.sys = some (res, s2) → res.1 ≠ some r) := by
  have hinv := Inv_exec maxConn factory ops _ st
    (Inv_init maxConn factory (le_of_lt hpos) s0 hc) he
  obtain ⟨h1, h2, h3, h4, h5⟩ := hinv
  have hm := maxConn.property
  have hposlen : 0 < st.out.length := List.length_pos_of_mem hr
  have hw : (wrap32 (st.sys.cp.openConn.val - 1)).val = st.sys.cp.openConn.val - 1 :=
    wrap32_val _ ⟨by omega, by omega⟩
  have key : ∃ s1, ReleaseResource a (some r) st.sys = Outcome.ok s1 ∧
      s1.closed = st.sys.closed ++ [r] ∧
      s1.cp.openConn.val = st.sys.cp.openConn.val - 1 ∧
      s1.cp.p = st.sys.cp.p := by
    by_cases hcap : st.sys.cp.maxConn.val ≤ st.sys.cp.openConn.val
    · exact ⟨_, release_at_capacity a r st.sys hcap, rfl, hw, rfl⟩
    · exact ⟨_, release_inactive a r st.sys (by omega) ha, rfl, hw, rfl⟩
  obtain ⟨s1, e1, e2, e3, e4⟩ := key
  refine ⟨s1, e1, e2, e3, e4, ?_⟩
  intro hidle hfresh ops1 st1 hno he1
  obtain ⟨c1, c2, _⟩ := release_ok_shape a r st.sys s1 e1
  have hgone : Gone r s1 := by
    refine ⟨by rw [e4]; exact hidle, ?_⟩
    intro k hk
    rw [c2, h2]
    exact hfresh k (by omega)
  have hgone1 : Gone r st1.sys := Gone_exec r ops1 ⟨s1, st.out.erase r⟩ st1 hgone hno he1
  refine ⟨hgone1.1, ?_⟩
  intro fuel res s2 hget
  exact (Gone_GetResource r fuel st1.sys res s2 hgone1 hget).1

theorem discard_on_inactive_witness :
    ∃ s0 st s1, CreatePool (wrap32 2) freshFactory = Outcome.ok s0 ∧
      Run.exec ⟨s0, []⟩ [Op.attempt] = some st ∧ 0 ∈ st.out ∧
      ReleaseResource (fun _ => false) (some 0) st.sys = Outcome.ok s1 ∧
      s1.closed = st.sys.closed ++ [0] ∧
      s1.cp.openConn.val = st.sys.cp.openConn.val - 1 ∧
      ∀ fuel res s2, GetResource fuel s1 = some (res, s2) → res.1 ≠ some 0 := by
  obtain ⟨s1, h1, h2, h3, _, h5⟩ :=
    discard_on_inactive (wrap32 2) freshFactory (by decide) _ rfl [Op.attempt] _ rfl 0
      (by decide) (fun _ => false) rfl
  refine ⟨_, _, s1, rfl, rfl, by decide, h1, h2, h3, ?_⟩
  have h6 := h5 (by decide)
    (by
      intro k hk
      have hk1 : 1 ≤ k := hk
      intro h
      have h2 : k = 0 := Option.some.inj h
      clear hk
      omega)
    [] ⟨s1, _⟩ (by simp) rfl
  exact h6.2

/-! ## The retry loop -/

theorem GetResource_sound (fuel : Nat) : ∀ (s : Sys) (res : ResourceAble × error) (s1 : Sys),
    GetResource fuel s = some (res, s1) → res.2 = none ∧ ∃ id, res.1 = some id := by
  induction fuel with
  | zero =>
    intro s res s1 h
    simp only [GetResource] at h
    cases h
  | succ n ih =>
    intro s res s1 h
    by_cases hc : (getOrCreate s).1.2 ≠ none ∨ (getOrCreate s).1.1 = none
    · rw [GetResource_continue n s hc] at h
      exact ih _ res s1 h
    · push_neg at hc
      obtain ⟨he, hr⟩ := hc
      obtain ⟨id, hid⟩ := Option.ne_none_iff_exists'.mp hr
      rw [GetResource_return n s id (Prod.ext hid he)] at h
      cases h
      exact ⟨rfl, id, rfl⟩

theorem GetResource_after_failures (N : Nat) : ∀ (s : Sys) (id : ResId),
    s.cp.p.buf = [] → s.cp.openConn.val < s.cp.maxConn.val →
    (∀ k, k < N → (s.cp.factory (s.calls + k)).2 ≠ none) →
    s.cp.factory (s.calls + N) = (some id, none) →
    ∀ fuel, (fuel ≤ N → GetResource fuel s = none) ∧
      (N < fuel → ∃ s1, GetResource fuel s = some ((some id, none), s1) ∧
        s1.calls = s.calls + N + 1 ∧
        s1.cp.openConn.val = s.cp.openConn.val + 1 ∧
        s1.cp.p = s.cp.p ∧ s1.cp.maxConn = s.cp.maxConn ∧ s1.closed = s.closed) := by
  induction N with
  | zero =>
    intro s id hb hlt _ hok fuel
    have hm := s.cp.maxConn.property
    have ho := s.cp.openConn.property
    have hok0 : s.cp.factory s.calls = (some id, none) := by simpa using hok
    have he : (s.cp.factory s.calls).2 = none := by rw [hok0]
    have hg := getOrCreate_made s hb hlt he
    constructor
    · intro hf
      have : fuel = 0 := by omega
      subst this
      rfl
    · intro hf
      obtain ⟨n, rfl⟩ : ∃ n, fuel = n + 1 := ⟨fuel - 1, by omega⟩
      refine ⟨_, GetResource_return n s id (by rw [hg, hok0]), by rw [hg], ?_, by rw [hg],
        by rw [hg], by rw [hg]⟩
      rw [hg]
      exact wrap32_val _ ⟨by omega, by omega⟩
  | succ N ih =>
    intro s id hb hlt hfail hok fuel
    have he : (s.cp.factory s.calls).2 ≠ none := by simpa using hfail 0 (by omega)
    have hg := getOrCreate_failed s hb hlt he
    have hc : (getOrCreate s).1.2 ≠ none ∨ (getOrCreate s).1.1 = none := by
      left
      rw [hg]
      exact he
    have hshift : ∀ k, s.calls + 1 + k = s.calls + (k + 1) := by intro k; omega
    have ih1 := ih { s with calls := s.calls + 1 } id hb hlt
      (by
        intro k hk
        simp only [hshift]
        exact hfail (k + 1) (by omega))
      (by
        simp only [hshift]
        exact hok)
    constructor
    · intro hf
      cases fuel with
      | zero => rfl
      | succ n =>
        rw [GetResource_continue n s hc, hg]
        exact (ih1 n).1 (by omega)
    · intro hf
      obtain ⟨n, rfl⟩ : ∃ n, fuel = n + 1 := ⟨fuel - 1, by omega⟩
      obtain ⟨s1, h1, h2, h3, h4, h5, h6⟩ := (ih1 n).2 (by omega)
      refine ⟨s1, ?_, ?_, h3, h4, h5, h6⟩
      · rw [GetResource_continue n s hc, hg]
        exact h1
      · simp only at h2
        omega

/-- C11: in every pool state with an empty idle channel and openConn < maxConn, if
the next N factory calls return an error and the call after them returns a non-nil
resource with a nil error, then GetResource returns that resource with a nil error
after exactly N + 1 factory calls (N + 1 iterations of its loop are needed and are
enough), and openConn has grown by exactly 1. -/
theorem GetResource_factory_failures (N : Nat) (s : Sys) (id : ResId)
    (hidle : s.cp.p.buf = []) (hlt : s.cp.openConn.val < s.cp.maxConn.val)
    (hfail : ∀ k, k < N → (s.cp.factory (s.calls + k)).2 ≠ none)
    (hok : s.cp.factory (s.calls + N) = (some id, none)) :
    (∀ fuel, fuel ≤ N → GetResource fuel s = none) ∧
    ∀ fuel, N < fuel →
      ∃ s1, GetResource fuel s = some ((some id, none), s1) ∧
        s1.calls = s.calls + (N + 1) ∧
        s1.cp.openConn.val = s.cp.openConn.val + 1 ∧
        s1.cp.p = s.cp.p := by
  refine ⟨fun fuel hf => (GetResource_after_failures N s id hidle hlt hfail hok fuel).1 hf, ?_⟩
  intro fuel hf
  obtain ⟨s1, h1, h2, h3, h4, _, _⟩ :=
    (GetResource_after_failures N s id hidle hlt hfail hok fuel).2 hf
  exact ⟨s1, h1, by omega, h3, h4⟩

theorem GetResource_factory_failures_witness :
    GetResource 2 (mkSys 4 1 4 [] lateFactory) = none ∧
    ∃ s1, GetResource 3 (mkSys 4 1 4 [] lateFactory) = some ((some 2, none), s1) ∧
      s1.calls = 3 ∧ s1.cp.openConn.val = 2 := by
  have h := GetResource_factory_failures 2 (mkSys 4 1 4 [] lateFactory) 2 rfl (by decide)
    (by
      intro k hk
      have : k = 0 ∨ k = 1 := by omega
      rcases this with rfl | rfl <;> decide)
    rfl
  obtain ⟨s1, h1, h2, h3, _⟩ := h.2 3 (by decide)
  refine ⟨h.1 2 (by decide), s1, h1, h2, ?_⟩
  rw [h3]
  decide

/-- C12: whenever GetResource returns, the error it returns is nil and the resource is
non-nil; and an iteration whose getOrCreate result carries an error (a factory error
or TRY_AGAIN) or a nil resource returns nothing: the loop goes round again. -/
theorem GetResource_never_fails (s : Sys) :
    (∀ fuel res s1, GetResource fuel s = some (res, s1) →
      res.2 = none ∧ ∃ id, res.1 = some id) ∧
    ((getOrCreate s).1.2 ≠ none ∨ (getOrCreate s).1.1 = none →
      (GetResource.iter s).1 = none ∧
      ∀ fuel, GetResource (fuel + 1) s = GetResource fuel (getOrCreate s).2) := by
  refine ⟨fun fuel res s1 h => GetResource_sound fuel s res s1 h, ?_⟩
  intro hc
  refine ⟨by rw [iter_continue s hc], ?_⟩
  intro fuel
  exact GetResource_continue fuel s hc

theorem GetResource_never_fails_witness :
    ∃ res s1, GetResource 3 (mkSys 4 1 4 [] lateFactory) = some (res, s1) ∧
      res.2 = none ∧ ∃ id, res.1 = some id :=
  ⟨_, _, rfl,
    (GetResource_never_fails (mkSys 4 1 4 [] lateFactory)).1 3 _ _ rfl⟩

/-- C17: in every pool state with an empty idle channel and openConn < maxConn, if the
factory returns a non-nil resource together with an error, getOrCreate passes both
on and changes nothing but the call count: openConn and idle are unchanged and Close
is not called; GetResource does not return the resource but goes round its loop
again, and the resource is not among the checked-out ones afterwards. -/
theorem resource_with_error_dropped (s : Sys) (id : ResId) (e : ErrVal)
    (hidle : s.cp.p.buf = []) (hlt : s.cp.openConn.val < s.cp.maxConn.val)
    (hres : s.cp.factory s.calls = (some id, some e)) :
    getOrCreate s = ((some id, some e), { s with calls := s.calls + 1 }) ∧
    (getOrCreate s).2.cp.openConn = s.cp.openConn ∧
    (getOrCreate s).2.cp.p.buf = [] ∧
    (getOrCreate s).2.closed = s.closed ∧
    GetResource.iter s = (none, { s with calls := s.calls + 1 }) ∧
    (∀ fuel, GetResource (fuel + 1) s = GetResource fuel { s with calls := s.calls + 1 }) ∧
    ∀ out, Run.step ⟨s, out⟩ Op.attempt = some ⟨{ s with calls := s.calls + 1 }, out⟩ := by
  have he : (s.cp.factory s.calls).2 ≠ none := by rw [hres]; simp
  have hg : getOrCreate s = ((some id, some e), { s with calls := s.calls + 1 }) := by
    rw [getOrCreate_failed s hidle hlt he, hres]
  have hc : (getOrCreate s).1.2 ≠ none ∨ (getOrCreate s).1.1 = none := by
    left
    rw [hg]
    simp
  refine ⟨hg, by rw [hg], by rw [hg]; exact hidle, by rw [hg], ?_, ?_, ?_⟩
  · rw [iter_continue s hc, hg]
  · intro fuel
    rw [GetResource_continue fuel s hc, hg]
  · intro out
    rw [step_attempt, handed_nil _ hc, hg]
    rfl

theorem resource_with_error_dropped_witness :
    getOrCreate (mkSys 4 1 4 [] bothFactory)
      = ((some 0, some (ErrVal.other 0)),
         { mkSys 4 1 4 [] bothFactory with calls := 0 + 1 }) ∧
    (getOrCreate (mkSys 4 1 4 [] bothFactory)).2.cp.openConn.val = 1 :=
  ⟨(resource_with_error_dropped (mkSys 4 1 4 [] bothFactory) 0 (ErrVal.other 0) rfl
      (by decide) rfl).1,
   by decide⟩

/-! ## Exhaustion -/

theorem exec_attempt_cons (st : Run) (ops : List Op) :
    Run.exec st (Op.attempt :: ops)
      = Run.exec ⟨(getOrCreate st.sys).2, handed (getOrCreate st.sys).1 ++ st.out⟩ ops := by
  simp only [Run.exec, step_attempt]

theorem exec_idle_attempts (n : Nat) (s : Sys) (out : List ResId)
    (h : getOrCreate s = ((none, TRY_AGAIN), s)) :
    Run.exec ⟨s, out⟩ (List.replicate n Op.attempt) = some ⟨s, out⟩ := by
  induction n with
  | zero => rfl
  | succ n ih =>
    rw [List.replicate_succ, exec_attempt_cons]
    simp only [h, handed, List.nil_append]
    exact ih

theorem GetResource_stuck (s : Sys) (h : getOrCreate s = ((none, TRY_AGAIN), s)) :
    ∀ fuel, GetResource fuel s = none := by
  intro fuel
  induction fuel with
  | zero => rfl
  | succ n ih =>
    rw [GetResource_continue n s (by rw [h]; right; rfl), h]
    exact ih

theorem nil_attempts (n : Nat) : ∀ (s : Sys) (out : List ResId),
    s.cp.p.buf = [] → s.cp.openConn.val + n = s.cp.maxConn.val →
    (∀ k, s.calls ≤ k → s.cp.factory k = (none, none)) →
    ∃ s1, Run.exec ⟨s, out⟩ (List.replicate n Op.attempt) = some ⟨s1, out⟩ ∧
      s1.cp.openConn.val = s.cp.maxConn.val ∧ s1.cp.maxConn = s.cp.maxConn ∧
      s1.cp.p = s.cp.p ∧ s1.calls = s.calls + n ∧ s1.closed = s.closed := by
  induction n with
  | zero =>
    intro s out _ hn _
    exact ⟨s, rfl, by simpa using hn, rfl, rfl, rfl, rfl⟩
  | succ n ih =>
    intro s out hb hn hnil
    have hm := s.cp.maxConn.property
    have ho := s.cp.openConn.property
    have hlt : s.cp.openConn.val < s.cp.maxConn.val := by
      push_cast at hn
      omega
    have hres := hnil s.calls (le_refl _)
    have he : (s.cp.factory s.calls).2 = none := by rw [hres]
    have hg := getOrCreate_made s hb hlt he
    have hw : (wrap32 (s.cp.openConn.val + 1)).val = s.cp.openConn.val + 1 :=
      wrap32_val _ ⟨by omega, by omega⟩
    obtain ⟨s1, h1, h2, h3, h4, h5, h6⟩ := ih
      { s with calls := s.calls + 1,
               cp := { s.cp with openConn := wrap32 (s.cp.openConn.val + 1) } } out hb
      (by simp only [hw]; push_cast at hn; omega)
      (fun k hk => hnil k (by simp only at hk; omega))
    refine ⟨s1, ?_, h2, h3, h4, ?_, h6⟩
    · rw [List.replicate_succ, exec_attempt_cons, hg, hres]
      simp only [handed, List.nil_append]
      exact h1
    · simp only at h5
      omega

theorem GetResource_nil_factory (fuel : Nat) : ∀ s : Sys, s.cp.p.buf = [] →
    (∀ k, s.calls ≤ k → s.cp.factory k = (none, none)) → GetResource fuel s = none := by
  induction fuel with
  | zero =>
    intro s _ _
    rfl
  | succ n ih =>
    intro s hb hnil
    by_cases hlt : s.cp.openConn.val < s.cp.maxConn.val
    · have hres := hnil s.calls (le_refl _)
      have he : (s.cp.factory s.calls).2 = none := by rw [hres]
      have hg := getOrCreate_made s hb hlt he
      rw [GetResource_continue n s (by rw [hg, hres]; right; rfl), hg]
      exact ih _ hb (fun k hk => hnil k (by simp only at hk; omega))
    · have hg := getOrCreate_full s hb (by omega)
      rw [GetResource_continue n s (by rw [hg]; right; rfl), hg]
      exact ih s hb hnil

/-- C20: in every pool state with an empty idle channel and openConn < maxConn, if the
factory returns a nil resource with a nil error, the attempt increments openConn by 1
and hands out nothing.  So with a factory that returns (nil, nil) from now on, after
maxConn - openConn attempts openConn equals maxConn, idle is still empty and no
resource has been checked out by them; from then on every attempt returns TRY_AGAIN
and leaves the state as it is, and GetResource never returns. -/
theorem nil_result_consumes_capacity (s : Sys) (hidle : s.cp.p.buf = [])
    (hlt : s.cp.openConn.val < s.cp.maxConn.val) :
    (s.cp.factory s.calls = (none, none) →
      (getOrCreate s).1 = (none, none) ∧
      (getOrCreate s).2.cp.openConn.val = s.cp.openConn.val + 1 ∧
      (getOrCreate s).2.cp.p.buf = [] ∧
      (GetResource.iter s).1 = none ∧
      ∀ out, Run.step ⟨s, out⟩ Op.attempt = some ⟨(getOrCreate s).2, out⟩) ∧
    ((∀ k, s.calls ≤ k → s.cp.factory k = (none, none)) →
      (∀ out, ∃ s1,
        Run.exec ⟨s, out⟩
            (List.replicate (s.cp.maxConn.val - s.cp.openConn.val).toNat Op.attempt)
          = some ⟨s1, out⟩ ∧
        s1.cp.openConn.val = s1.cp.maxConn.val ∧ s1.cp.maxConn = s.cp.maxConn ∧
        s1.cp.p.buf = [] ∧
        getOrCreate s1 = ((none, TRY_AGAIN), s1) ∧
        (∀ n, Run.exec ⟨s1, out⟩ (List.replicate n Op.attempt) = some ⟨s1, out⟩) ∧
        ∀ fuel, GetResource fuel s1 = none) ∧
      ∀ fuel, GetResource fuel s = none) := by
  have hm := s.cp.maxConn.property
  have ho := s.cp.openConn.property
  constructor
  · intro hres
    have he : (s.cp.factory s.calls).2 = none := by rw [hres]
    have hg := getOrCreate_made s hidle hlt he
    have hc : (getOrCreate s).1.2 ≠ none ∨ (getOrCreate s).1.1 = none := by
      right
      rw [hg, hres]
    refine ⟨by rw [hg, hres], ?_, by rw [hg]; exact hidle, by rw [iter_continue s hc], ?_⟩
    · rw [hg]
      exact wrap32_val _ ⟨by omega, by omega⟩
    · intro out
      rw [step_attempt, handed_nil _ hc]
      rfl
  · intro hnil
    refine ⟨?_, fun fuel => GetResource_nil_factory fuel s hidle hnil⟩
    intro out
    obtain ⟨s1, h1, h2, h3, h4, _, _⟩ :=
      nil_attempts (s.cp.maxConn.val - s.cp.openConn.val).toNat s out hidle
        (by rw [Int.toNat_of_nonneg (by omega)]; omega) hnil
    have hb1 : s1.cp.p.buf = [] := by rw [h4]; exact hidle
    have hfull : getOrCreate s1 = ((none, TRY_AGAIN), s1) :=
      getOrCreate_full s1 hb1 (by rw [h2, h3])
    exact ⟨s1, h1, by rw [h2, h3], h3, hb1, hfull,
      fun n => exec_idle_attempts n s1 out hfull, GetResource_stuck s1 hfull⟩

theorem nil_result_consumes_capacity_witness :
    ∃ s1, Run.exec ⟨mkSys 4 1 4 [] nilFactory, []⟩ (List.replicate 3 Op.attempt)
        = some ⟨s1, []⟩ ∧
      s1.cp.openConn.val = 4 ∧ s1.cp.p.buf = [] ∧
      getOrCreate s1 = ((none, TRY_AGAIN), s1) := by
  obtain ⟨s1, h1, h2, h3, h4, h5, _⟩ :=
    ((nil_result_consumes_capacity (mkSys 4 1 4 [] nilFactory) rfl (by decide)).2
      (fun _ _ => rfl)).1 []
  have hn : ((mkSys 4 1 4 [] nilFactory).cp.maxConn.val
      - (mkSys 4 1 4 [] nilFactory).cp.openConn.val).toNat = 3 := by decide
  rw [hn] at h1
  refine ⟨s1, h1, ?_, h4, h5⟩
  rw [h2, h3]
  decide

theorem made_returns (s : Sys) (id : ResId) (hb : s.cp.p.buf = [])
    (hlt : s.cp.openConn.val < s.cp.maxConn.val)
    (hres : s.cp.factory s.calls = (some id, none)) :
    ∃ s1, getOrCreate s = ((some id, none), s1) ∧
      (∀ fuel, GetResource (fuel + 1) s = some ((some id, none), s1)) ∧
      s1.calls = s.calls + 1 ∧ s1.cp.openConn.val = s.cp.openConn.val + 1 ∧
      s1.cp.p = s.cp.p ∧ s1.cp.maxConn = s.cp.maxConn ∧
      s1.cp.factory = s.cp.factory ∧ s1.closed = s.closed := by
  have hm := s.cp.maxConn.property
  have ho := s.cp.openConn.property
  have hg := getOrCreate_made s hb hlt (by rw [hres])
  rw [hres] at hg
  refine ⟨_, hg, ?_, rfl, wrap32_val _ ⟨by omega, by omega⟩, rfl, rfl, rfl, rfl⟩
  intro fuel
  exact (GetResource_return fuel s id (by rw [hg])).trans (by rw [hg])

theorem release_at_capacity_fields (a : ResId → Bool) (r : ResId) (s : Sys)
    (h : s.cp.maxConn.val ≤ s.cp.openConn.val) (hmin : -2147483648 < s.cp.openConn.val) :
    ∃ s1, ReleaseResource a (some r) s = Outcome.ok s1 ∧
      s1.calls = s.calls ∧ s1.cp.openConn.val = s.cp.openConn.val - 1 ∧
      s1.cp.p = s.cp.p ∧ s1.cp.maxConn = s.cp.maxConn ∧
      s1.cp.factory = s.cp.factory := by
  have ho := s.cp.openConn.property
  exact ⟨_, release_at_capacity a r s h, rfl, wrap32_val _ ⟨by omega, by omega⟩, rfl, rfl, rfl⟩

/-- C13: for a pool created with maxConn = 1 and a factory that succeeds with a
non-nil resource on every call: GetResource returns the first resource r; as long as
r is not released, every further attempt returns TRY_AGAIN with no resource and
leaves the state unchanged, so a second GetResource does not return; after
ReleaseResource(r), whatever liveness r reports, the next attempt succeeds and
GetResource returns a non-nil resource with a nil error. -/
theorem exhaustion_then_release (factory : Factory)
    (hok : ∀ k, ∃ id, factory k = (some id, none)) :
    ∃ s0 r s1, CreatePool (wrap32 1) factory = Outcome.ok s0 ∧
      (∀ fuel, GetResource (fuel + 1) s0 = some ((some r, none), s1)) ∧
      getOrCreate s1 = ((none, TRY_AGAIN), s1) ∧
      (∀ n, Run.exec ⟨s1, [r]⟩ (List.replicate n Op.attempt) = some ⟨s1, [r]⟩) ∧
      (∀ fuel, GetResource fuel s1 = none) ∧
      ∀ a : ResId → Bool, ∃ s2, ReleaseResource a (some r) s1 = Outcome.ok s2 ∧
        ∃ r2 s3, getOrCreate s2 = ((some r2, none), s3) ∧
          ∀ fuel, GetResource (fuel + 1) s2 = some ((some r2, none), s3) := by
  have hv1 : (wrap32 1).val = 1 := by decide
  obtain ⟨s0, c1, c2, c3, c4, _, c6, c7, _, _⟩ :=
    CreatePool_spec (wrap32 1) factory (by decide)
  have hcalls : s0.calls = 0 := by rw [c2, hv1]; decide
  have hb0 : s0.cp.p.buf = [] := by rw [c6, hv1]; exact warmed_zero factory 0
  have ho0 : s0.cp.openConn.val = 0 := by rw [c7, hv1]; rfl
  obtain ⟨r, hr⟩ := hok 0
  obtain ⟨r2, hr2⟩ := hok 1
  obtain ⟨s1, g1, g2, g3, g4, g5, g6, g7, _⟩ := made_returns s0 r hb0
    (by rw [ho0, c3, hv1]; decide) (by rw [c4, hcalls, hr])
  have hb1 : s1.cp.p.buf = [] := by rw [g5]; exact hb0
  have hfull := getOrCreate_full s1 hb1 (by rw [g4, g6, ho0, c3, hv1]; decide)
  refine ⟨s0, r, s1, c1, g2, hfull, fun n => exec_idle_attempts n _ _ hfull,
    GetResource_stuck _ hfull, ?_⟩
  intro a
  obtain ⟨s2, e1, e2, e3, e4, e5, e6⟩ := release_at_capacity_fields a r s1
    (by rw [g4, g6, ho0, c3, hv1]; decide) (by rw [g4, ho0]; decide)
  obtain ⟨s3, k1, k2, _⟩ := made_returns s2 r2 (by rw [e4]; exact hb1)
    (by rw [e3, e5, g4, g6, ho0, c3, hv1]; decide)
    (by rw [e6, g7, c4, e2, g3, hcalls]; exact hr2)
  exact ⟨s2, e1, r2, s3, k1, k2⟩

theorem exhaustion_then_release_witness :
    ∃ s0 r s1, CreatePool (wrap32 1) freshFactory = Outcome.ok s0 ∧
      (∀ fuel, GetResource (fuel + 1) s0 = some ((some r, none), s1)) ∧
      getOrCreate s1 = ((none, TRY_AGAIN), s1) ∧
      (∀ n, Run.exec ⟨s1, [r]⟩ (List.replicate n Op.attempt) = some ⟨s1, [r]⟩) ∧
      (∀ fuel, GetResource fuel s1 = none) ∧
      ∀ a : ResId → Bool, ∃ s2, ReleaseResource a (some r) s1 = Outcome.ok s2 ∧
        ∃ r2 s3, getOrCreate s2 = ((some r2, none), s3) ∧
          ∀ fuel, GetResource (fuel + 1) s2 = some ((some r2, none), s3) :=
  exhaustion_then_release freshFactory (fun k => ⟨k, rfl⟩)

/-! ## The idle channel: capacity and order -/

/-- C18: for every maxConn ≥ 0, CreatePool returns (none of its sends blocks) with
size(idle) ≤ maxConn in a channel of capacity maxConn; and in every state reached
by acquire attempts and releases of checked-out resources, size(idle) ≤ maxConn,
size(idle) < maxConn whenever a release of a checked-out resource takes the
put-back branch, and such a release always returns: its send does not block. -/
theorem idle_never_overflows (maxConn : int32) (factory : Factory) (h0 : 0 ≤ maxConn.val) :
    ∃ s0, CreatePool maxConn factory = Outcome.ok s0 ∧
      s0.cp.p.cap = maxConn.val.toNat ∧
      (s0.cp.p.buf.length : Int) ≤ maxConn.val ∧
      ∀ ops st, Run.exec ⟨s0, []⟩ ops = some st →
        st.sys.cp.p.cap = maxConn.val.toNat ∧
        (st.sys.cp.p.buf.length : Int) ≤ maxConn.val ∧
        ∀ r ∈ st.out, ∀ a : ResId → Bool,
          (st.sys.cp.openConn.val < st.sys.cp.maxConn.val → a r = true →
            (st.sys.cp.p.buf.length : Int) < maxConn.val ∧
            st.sys.cp.p.buf.length < st.sys.cp.p.cap) ∧
          ∃ s1, ReleaseResource a (some r) st.sys = Outcome.ok s1 := by
  obtain ⟨s0, c1, _⟩ := CreatePool_spec maxConn factory h0
  have hinv0 := Inv_init maxConn factory h0 s0 c1
  refine ⟨s0, c1, hinv0.cap_eq, ?_, ?_⟩
  · have h4 := hinv0.tracked
    have h5 := hinv0.le_max
    dsimp only at h4 h5
    omega
  · intro ops st he
    have hinv := Inv_exec maxConn factory ops _ st hinv0 he
    obtain ⟨h1, h2, h3, h4, h5⟩ := hinv
    refine ⟨h3, by omega, ?_⟩
    intro r hr a
    have hpos : 0 < st.out.length := List.length_pos_of_mem hr
    constructor
    · intro hlt _
      rw [h1] at hlt
      rw [h3]
      constructor <;> omega
    · obtain ⟨s1, e1, _, _⟩ := Inv_release maxConn factory st ⟨h1, h2, h3, h4, h5⟩ r hr a
      exact ⟨s1, e1⟩

theorem idle_never_overflows_witness :
    ∃ s0, CreatePool (wrap32 3) freshFactory = Outcome.ok s0 ∧
      s0.cp.p.cap = 3 ∧ s0.cp.p.buf.length = 1 := by
  obtain ⟨s0, h1, _⟩ := idle_never_overflows (wrap32 3) freshFactory (by decide)
  have e0 : CreatePool (wrap32 3) freshFactory = Outcome.ok _ := rfl
  rw [e0] at h1
  cases h1
  exact ⟨_, rfl, rfl, rfl⟩

theorem GetResource_skip_nils (n : Nat) : ∀ (s : Sys) (id : ResId) (rest : List ResourceAble),
    s.cp.p.buf = List.replicate n none ++ some id :: rest →
    ∀ fuel, ∃ s1, GetResource (n + 1 + fuel) s = some ((some id, none), s1) ∧
      s1.cp.p.buf = rest ∧ s1.cp.p.cap = s.cp.p.cap ∧ s1.calls = s.calls ∧
      s1.cp.openConn = s.cp.openConn ∧ s1.closed = s.closed := by
  induction n with
  | zero =>
    intro s id rest hb fuel
    have hb0 : s.cp.p.buf = some id :: rest := by simpa using hb
    have hg := getOrCreate_idle s (some id) rest hb0
    refine ⟨{ s with cp := { s.cp with p := { s.cp.p with buf := rest } } }, ?_,
      rfl, rfl, rfl, rfl, rfl⟩
    have e : 0 + 1 + fuel = fuel + 1 := by omega
    rw [e]
    exact (GetResource_return fuel s id (by rw [hg])).trans (by rw [hg])
  | succ n ih =>
    intro s id rest hb fuel
    have hb0 : s.cp.p.buf = none :: (List.replicate n none ++ some id :: rest) := by
      rw [hb, List.replicate_succ]
      rfl
    have hg := getOrCreate_idle s none _ hb0
    obtain ⟨s1, h1, h2, h3, h4, h5, h6⟩ := ih
      { s with cp := { s.cp with p := { s.cp.p with
          buf := List.replicate n none ++ some id :: rest } } } id rest rfl fuel
    refine ⟨s1, ?_, h2, h3, h4, h5, h6⟩
    have e : n + 1 + 1 + fuel = (n + 1 + fuel) + 1 := by omega
    rw [e, GetResource_continue _ s (by rw [hg]; right; rfl), hg]
    exact h1

theorem queue_order (ops : List Op) : ∀ (st st1 : Run) (B T : List ResourceAble)
    (x : ResourceAble), st.sys.cp.p.buf = B ++ x :: T →
    List.count Op.attempt ops ≤ B.length → Run.exec st ops = some st1 →
    ∃ T1, st1.sys.cp.p.buf = B.drop (List.count Op.attempt ops) ++ x :: T1 := by
  induction ops with
  | nil =>
    intro st st1 B T x hb _ he
    simp only [Run.exec] at he
    cases he
    exact ⟨T, by simpa using hb⟩
  | cons op ops ih =>
    intro st st1 B T x hb hc he
    cases op with
    | attempt =>
      rw [exec_attempt_cons] at he
      rw [List.count_cons_self] at hc ⊢
      cases B with
      | nil => simp at hc
      | cons b B1 =>
        have hb1 : st.sys.cp.p.buf = b :: (B1 ++ x :: T) := by rw [hb]; rfl
        rw [getOrCreate_idle st.sys b _ hb1] at he
        obtain ⟨T1, h1⟩ := ih _ st1 B1 T x rfl
          (by simp only [List.length_cons] at hc; omega) he
        exact ⟨T1, by rw [h1]; rfl⟩
    | release q alive =>
      have hne : List.count Op.attempt (Op.release q alive :: ops)
          = List.count Op.attempt ops :=
        List.count_cons_of_ne (by simp) ops
      rw [hne] at hc ⊢
      cases hs : st.step (Op.release q alive) with
      | none => simp only [Run.exec, hs] at he; cases he
      | some st2 =>
        simp only [Run.exec, hs] at he
        have hshape : st2.sys.cp.p.buf = st.sys.cp.p.buf ∨
            st2.sys.cp.p.buf = st.sys.cp.p.buf ++ [some q] := by
          by_cases hmem : q ∈ st.out
          · cases hrel : ReleaseResource (fun _ => alive) (some q) st.sys with
            | ok s1 =>
              simp only [Run.step, hmem, if_true, hrel] at hs
              cases hs
              exact (release_ok_shape _ q st.sys s1 hrel).2.2
            | panic => simp only [Run.step, hmem, if_true, hrel] at hs; cases hs
            | blocked => simp only [Run.step, hmem, if_true, hrel] at hs; cases hs
          · simp only [Run.step, hmem, if_false] at hs
            cases hs
        rcases hshape with e | e
        · exact ih st2 st1 B T x (by rw [e, hb]) hc he
        · exact ih st2 st1 B (T ++ [some q]) x (by rw [e, hb]; simp) hc he

/-- C19: the idle channel is first-in first-out.  (1) In every pool state,
GetResource returns the oldest resource in idle (the first non-nil entry; nil
entries ahead of it are taken and dropped), without calling the factory, and what
was queued behind it stays in order.  (2) When ReleaseResource puts r back, r goes
behind everything that is idle at that time; in every execution from there, as long
as the attempts made are no more than the entries that were idle, each attempt has
taken one of those entries, oldest first, and r is still idle behind the remaining
ones; the attempt that finds them all taken returns r. -/
theorem idle_fifo (s : Sys) :
    (∀ n id rest, s.cp.p.buf = List.replicate n none ++ some id :: rest →
      ∀ fuel, ∃ s1, GetResource (n + 1 + fuel) s = some ((some id, none), s1) ∧
        s1.cp.p.buf = rest ∧ s1.calls = s.calls) ∧
    (∀ r rest, s.cp.p.buf = r :: rest →
      (getOrCreate s).1 = (r, none) ∧ (getOrCreate s).2.cp.p.buf = rest) ∧
    (∀ (a : ResId → Bool) (r : ResId), s.cp.openConn.val < s.cp.maxConn.val →
      a r = true → s.cp.p.buf.length < s.cp.p.cap →
      ∃ s1, ReleaseResource a (some r) s = Outcome.ok s1 ∧
        s1.cp.p.buf = s.cp.p.buf ++ [some r] ∧
        ∀ out ops st, Run.exec ⟨s1, out⟩ ops = some st →
          List.count Op.attempt ops ≤ s.cp.p.buf.length →
          ∃ T, st.sys.cp.p.buf
              = s.cp.p.buf.drop (List.count Op.attempt ops) ++ some r :: T ∧
            (List.count Op.attempt ops = s.cp.p.buf.length →
              (getOrCreate st.sys).1 = (some r, none))) := by
  refine ⟨?_, ?_, ?_⟩
  · intro n id rest hb fuel
    obtain ⟨s1, h1, h2, _, h4, _, _⟩ := GetResource_skip_nils n s id rest hb fuel
    exact ⟨s1, h1, h2, h4⟩
  · intro r rest hb
    rw [getOrCreate_idle s r rest hb]
    exact ⟨rfl, rfl⟩
  · intro a r hlt ha hroom
    refine ⟨_, release_put_back a r s hlt ha hroom, rfl, ?_⟩
    intro out ops st he hc
    obtain ⟨T, hT⟩ := queue_order ops _ st s.cp.p.buf [] (some r) rfl hc he
    refine ⟨T, hT, ?_⟩
    intro heq
    rw [heq, List.drop_length, List.nil_append] at hT
    rw [getOrCreate_idle st.sys (some r) T hT]

theorem idle_fifo_witness :
    (∃ s1, GetResource 1 (mkSys 4 2 4 [some 7, some 8] freshFactory)
        = some ((some 7, none), s1) ∧ s1.cp.p.buf = [some 8]) ∧
    (∃ s1, ReleaseResource (fun _ => true) (some 9) (mkSys 4 2 4 [some 7, some 8] freshFactory)
        = Outcome.ok s1 ∧
      s1.cp.p.buf = [some 7, some 8, some 9] ∧
      ∃ st T, Run.exec ⟨s1, []⟩ [Op.attempt, Op.attempt] = some st ∧
        st.sys.cp.p.buf = some 9 :: T ∧ (getOrCreate st.sys).1 = (some 9, none)) := by
  have h := idle_fifo (mkSys 4 2 4 [some 7, some 8] freshFactory)
  constructor
  · obtain ⟨s1, h1, h2, _⟩ := h.1 0 7 [some 8] rfl 0
    exact ⟨s1, h1, h2⟩
  · obtain ⟨s1, h1, h2, h3⟩ := h.2.2 (fun _ => true) 9 (by decide) rfl (by decide)
    have e : ReleaseResource (fun _ => true) (some 9) (mkSys 4 2 4 [some 7, some 8] freshFactory)
        = Outcome.ok _ := rfl
    rw [e] at h1
    cases h1
    obtain ⟨T, hT, hr⟩ := h3 [] [Op.attempt, Op.attempt] _ rfl (by decide)
    exact ⟨_, rfl, h2, _, T, rfl, hT, hr (by decide)⟩

/-! ## Exact bookkeeping -/

theorem step_cases (st st1 : Run) (op : Op) (hs : st.step op = some st1) :
    (op = Op.attempt ∧
      st1 = ⟨(getOrCreate st.sys).2, handed (getOrCreate st.sys).1 ++ st.out⟩) ∨
    (∃ r alive s1, op = Op.release r alive ∧ r ∈ st.out ∧
      ReleaseResource (fun _ => alive) (some r) st.sys = Outcome.ok s1 ∧
      st1 = ⟨s1, st.out.erase r⟩) := by
  cases op with
  | attempt =>
    rw [step_attempt] at hs
    cases hs
    exact Or.inl ⟨rfl, rfl⟩
  | release q alive =>
    by_cases hmem : q ∈ st.out
    · cases hrel : ReleaseResource (fun _ => alive) (some q) st.sys with
      | ok s1 =>
        simp only [Run.step, hmem, if_true, hrel] at hs
        cases hs
        exact Or.inr ⟨q, alive, s1, rfl, hmem, hrel, rfl⟩
      | panic => simp only [Run.step, hmem, if_true, hrel] at hs; cases hs
      | blocked => simp only [Run.step, hmem, if_true, hrel] at hs; cases hs
    · simp only [Run.step, hmem, if_false] at hs
      cases hs

/-- Induction along an execution, for a property kept by every step taken in a
state that satisfies the bookkeeping invariant. -/
theorem exec_induction (P : Run → Prop) (m : int32) (f : Factory)
    (hstep : ∀ (st st1 : Run) (op : Op), Inv m f st → P st → st.step op = some st1 → P st1)
    (ops : List Op) :
    ∀ st st1 : Run, Inv m f st → P st → Run.exec st ops = some st1 → P st1 := by
  induction ops with
  | nil =>
    intro st st1 _ hp he
    simp only [Run.exec] at he
    cases he
    exact hp
  | cons op ops ih =>
    intro st st1 hinv hp he
    cases hs : st.step op with
    | none => simp only [Run.exec, hs] at he; cases he
    | some st2 =>
      simp only [Run.exec, hs] at he
      exact ih st2 st1 (Inv_step m f st st2 op hinv hs) (hstep st st2 op hinv hp hs) he

/-- The ways a ReleaseResource call that returns can have changed the state: the
resource was closed, or it was put back. -/
theorem release_cases (a : ResId → Bool) (r : ResId) (s s1 : Sys)
    (h : ReleaseResource a (some r) s = Outcome.ok s1) :
    s1.calls = s.calls ∧ s1.cp.factory = s.cp.factory ∧ s1.cp.maxConn = s.cp.maxConn ∧
    ((s1.closed = s.closed ++ [r] ∧ s1.cp.p = s.cp.p ∧
        s1.cp.openConn = wrap32 (s.cp.openConn.val - 1)) ∨
     (s1.closed = s.closed ∧ s1.cp.p.buf = s.cp.p.buf ++ [some r] ∧
        s1.cp.openConn = s.cp.openConn)) := by
  by_cases hcap : s.cp.maxConn.val ≤ s.cp.openConn.val
  · rw [release_at_capacity a r s hcap] at h
    cases h
    exact ⟨rfl, rfl, rfl, Or.inl ⟨rfl, rfl, rfl⟩⟩
  · by_cases ha : a r = false
    · rw [release_inactive a r s (by omega) ha] at h
      cases h
      exact ⟨rfl, rfl, rfl, Or.inl ⟨rfl, rfl, rfl⟩⟩
    · have ha1 : a r = true := by simpa using ha
      by_cases hroom : s.cp.p.buf.length < s.cp.p.cap
      · rw [release_put_back a r s (by omega) ha1 hroom] at h
        cases h
        exact ⟨rfl, rfl, rfl, Or.inr ⟨rfl, rfl, rfl⟩⟩
      · rw [release_blocks a r s (by omega) ha1 (by omega)] at h
        cases h

theorem successes_succ (f : Factory) (n : Nat) :
    successes f (n + 1) = successes f n + (if (f n).2 = none then 1 else 0) := by
  unfold successes
  rw [List.range_succ, List.countP_append]
  by_cases h : (f n).2 = none <;> simp [List.countP_cons, h]

theorem warmed_no_nil (f : Factory) (hnn : ∀ k, (f k).2 = none → (f k).1 ≠ none)
    (start n : Nat) : none ∉ warmed f start n := by
  unfold warmed
  intro hm
  obtain ⟨k, hk, hk2⟩ := List.mem_map.mp hm
  have hk1 := (List.mem_filter.mp hk).2
  exact hnn k (by simpa using hk1) hk2

theorem Exact_init (m : int32) (f : Factory) (h : 0 ≤ m.val)
    (hnn : ∀ k, (f k).2 = none → (f k).1 ≠ none) (s : Sys)
    (hc : CreatePool m f = Outcome.ok s) : Exact f ⟨s, []⟩ := by
  obtain ⟨s1, h1, h2, _, _, _, h6, h7, h8, _⟩ := CreatePool_spec m f h
  rw [hc] at h1
  cases h1
  refine ⟨?_, ?_, ?_⟩
  · dsimp only
    rw [h6]
    exact warmed_no_nil f hnn _ _
  · dsimp only
    rw [h7, h6]
    simp
  · dsimp only
    rw [h7, h8, h2, warmed_length_countP]
    simp [successes]

theorem Exact_attempt (m : int32) (f : Factory)
    (hnn : ∀ k, (f k).2 = none → (f k).1 ≠ none) (st : Run)
    (hinv : Inv m f st) (hex : Exact f st) :
    Exact f ⟨(getOrCreate st.sys).2, handed (getOrCreate st.sys).1 ++ st.out⟩ := by
  obtain ⟨i1, i2, _, i4, i5⟩ := hinv
  subst i2
  obtain ⟨x1, x2, x3⟩ := hex
  have hm := m.property
  have ho := st.sys.cp.openConn.property
  cases hb : st.sys.cp.p.buf with
  | cons x rest =>
    rw [hb] at x1 x2
    have hx : x ≠ none := fun e => x1 (by rw [e]; exact List.mem_cons_self _ _)
    obtain ⟨id, rfl⟩ := Option.ne_none_iff_exists'.mp hx
    rw [getOrCreate_idle st.sys (some id) rest hb]
    refine ⟨fun hmem => x1 (List.mem_cons_of_mem _ hmem), ?_, x3⟩
    simp only [handed, List.length_cons, List.singleton_append] at x2 ⊢
    push_cast at x2 ⊢
    omega
  | nil =>
    rw [hb] at x2
    by_cases hlt : st.sys.cp.openConn.val < st.sys.cp.maxConn.val
    · have hw : (wrap32 (st.sys.cp.openConn.val + 1)).val = st.sys.cp.openConn.val + 1 := by
        rw [i1] at hlt
        exact wrap32_val _ ⟨by omega, by omega⟩
      by_cases he : (st.sys.cp.factory st.sys.calls).2 = none
      · have hr : (st.sys.cp.factory st.sys.calls).1 ≠ none := hnn _ he
        obtain ⟨id, hid⟩ := Option.ne_none_iff_exists'.mp hr
        have hres : st.sys.cp.factory st.sys.calls = (some id, none) := Prod.ext hid he
        rw [getOrCreate_made st.sys hb hlt he, hres]
        refine ⟨by dsimp only; rw [hb]; simp, ?_, ?_⟩
        · simp only [hw, hb, handed, List.length_nil, List.singleton_append,
            List.length_cons] at x2 ⊢
          push_cast at x2 ⊢
          omega
        · dsimp only
          rw [hw, successes_succ, if_pos he]
          push_cast
          omega
      · rw [getOrCreate_failed st.sys hb hlt he, handed_nil _ (Or.inl he)]
        refine ⟨by dsimp only; rw [hb]; simp, ?_, ?_⟩
        · simp only [hb, List.length_nil, List.nil_append] at x2 ⊢
          exact x2
        · dsimp only
          rw [successes_succ, if_neg he]
          simpa using x3
    · rw [getOrCreate_full st.sys hb (by omega), handed_nil _ (Or.inr rfl)]
      refine ⟨by rw [hb]; simp, ?_, x3⟩
      simp only [hb, List.length_nil, List.nil_append] at x2 ⊢
      exact x2

theorem Exact_step (m : int32) (f : Factory)
    (hnn : ∀ k, (f k).2 = none → (f k).1 ≠ none) (st st1 : Run) (op : Op)
    (hinv : Inv m f st) (hex : Exact f st) (hs : st.step op = some st1) : Exact f st1 := by
  rcases step_cases st st1 op hs with ⟨_, rfl⟩ | ⟨r, alive, s1, _, hr, hrel, rfl⟩
  · exact Exact_attempt m f hnn st hinv hex
  · obtain ⟨_, _, _, i4, i5⟩ := hinv
    obtain ⟨x1, x2, x3⟩ := hex
    have hm := m.property
    have hpos : 0 < st.out.length := List.length_pos_of_mem hr
    have hlen : (st.out.erase r).length = st.out.length - 1 := List.length_erase_of_mem hr
    have hw : (wrap32 (st.sys.cp.openConn.val - 1)).val = st.sys.cp.openConn.val - 1 :=
      wrap32_val _ ⟨by omega, by omega⟩
    obtain ⟨c1, _, _, hcase⟩ := release_cases _ r st.sys s1 hrel
    rcases hcase with ⟨e1, e2, e3⟩ | ⟨e1, e2, e3⟩
    · refine ⟨by dsimp only; rw [e2]; exact x1, ?_, ?_⟩
      · dsimp only
        rw [e2, e3, hw, hlen]
        omega
      · dsimp only
        rw [e1, e3, hw, c1, List.length_append, List.length_singleton]
        push_cast
        omega
    · refine ⟨?_, ?_, ?_⟩
      · dsimp only
        rw [e2]
        intro hmem
        rcases List.mem_append.mp hmem with hmem | hmem
        · exact x1 hmem
        · simp at hmem
      · dsimp only
        rw [e2, e3, hlen, List.length_append, List.length_singleton]
        push_cast
        omega
      · dsimp only
        rw [e1, e3, c1]
        exact x3

/-- C14: for a pool created with maxConn > 0 and a factory that returns a non-nil
resource whenever it returns a nil error, in every state reached by acquire attempts
and releases of checked-out resources, openConn equals size(idle) plus the number
of checked-out resources, and openConn equals the number of successful factory
calls minus the number of Close calls: every Close has decremented it exactly once. -/
theorem exact_bookkeeping (maxConn : int32) (factory : Factory) (hpos : 0 < maxConn.val)
    (hnn : ∀ k, (factory k).2 = none → (factory k).1 ≠ none) :
    ∃ s0, CreatePool maxConn factory = Outcome.ok s0 ∧
      ∀ ops st, Run.exec ⟨s0, []⟩ ops = some st →
        st.sys.cp.openConn.val = (st.sys.cp.p.buf.length : Int) + st.out.length ∧
        st.sys.cp.openConn.val
          = (successes factory st.sys.calls : Int) - st.sys.closed.length := by
  obtain ⟨s0, c1, _⟩ := CreatePool_spec maxConn factory (le_of_lt hpos)
  refine ⟨s0, c1, ?_⟩
  intro ops st he
  have hex := exec_induction (Exact factory) maxConn factory
    (fun st st1 op hi hp hs => Exact_step maxConn factory hnn st st1 op hi hp hs) ops _ st
    (Inv_init maxConn factory (le_of_lt hpos) s0 c1)
    (Exact_init maxConn factory (le_of_lt hpos) hnn s0 c1) he
  obtain ⟨_, x2, x3⟩ := hex
  exact ⟨x2, by omega⟩

theorem exact_bookkeeping_witness :
    ∃ s0 st, CreatePool (wrap32 4) flakyFactory = Outcome.ok s0 ∧
      Run.exec ⟨s0, []⟩ [Op.attempt, Op.attempt, Op.release 1 false, Op.attempt] = some st ∧
      st.out = [3] ∧ st.sys.closed = [1] ∧ st.sys.cp.p.buf = [] ∧
      st.sys.cp.openConn.val = (st.sys.cp.p.buf.length : Int) + st.out.length ∧
      st.sys.cp.openConn.val
        = (successes flakyFactory st.sys.calls : Int) - st.sys.closed.length := by
  obtain ⟨s0, h0, h⟩ := exact_bookkeeping (wrap32 4) flakyFactory (by decide)
    (by
      intro k hk
      unfold flakyFactory at hk ⊢
      split at hk
      · simp at hk
      · rename_i hne
        rw [if_neg hne]
        simp)
  have e0 : CreatePool (wrap32 4) flakyFactory = Outcome.ok _ := rfl
  rw [e0] at h0
  cases h0
  obtain ⟨h1, h2⟩ :=
    h [Op.attempt, Op.attempt, Op.release 1 false, Op.attempt] _ rfl
  exact ⟨_, _, rfl, rfl, rfl, rfl, rfl, h1, h2⟩

/-! ## Close at most once -/

theorem warmed_count (f : Factory) (hf : FreshFactory f) (id : ResId) (n : Nat) :
    ∀ start, (warmed f start n).count (some id) ≤ 1 ∧
      (0 < (warmed f start n).count (some id) →
        ∃ k, start ≤ k ∧ k < start + n ∧ f k = (some id, none)) := by
  induction n with
  | zero =>
    intro start
    simp [warmed_zero]
  | succ n ih =>
    intro start
    obtain ⟨ih1, ih2⟩ := ih (start + 1)
    by_cases he : (f start).2 = none
    · rw [warmed_succ_ok f start n he, List.count_cons]
      by_cases hx : (f start).1 = some id
      · have hres : f start = (some id, none) := Prod.ext hx he
        have hz : (warmed f (start + 1) n).count (some id) = 0 := by
          by_contra hne
          obtain ⟨k, hk1, _, hk3⟩ := ih2 (Nat.pos_of_ne_zero hne)
          have := hf start k id hres hk3
          omega
        rw [hz, hx]
        simp only [beq_self_eq_true, if_true]
        exact ⟨by omega, fun _ => ⟨start, le_refl _, by omega, hres⟩⟩
      · have hb : ((f start).1 == some id) = false := by simpa using hx
        rw [hb]
        simp only [Bool.false_eq_true, if_false, Nat.add_zero]
        refine ⟨ih1, fun hp => ?_⟩
        obtain ⟨k, hk1, hk2, hk3⟩ := ih2 hp
        exact ⟨k, by omega, by omega, hk3⟩
    · rw [warmed_succ_err f start n he]
      refine ⟨ih1, fun hp => ?_⟩
      obtain ⟨k, hk1, hk2, hk3⟩ := ih2 hp
      exact ⟨k, by omega, by omega, hk3⟩

theorem Owned_init (m : int32) (f : Factory) (h : 0 ≤ m.val) (hf : FreshFactory f)
    (s : Sys) (hc : CreatePool m f = Outcome.ok s) : Owned f ⟨s, []⟩ := by
  obtain ⟨s1, h1, h2, _, _, _, h6, _, h8, _⟩ := CreatePool_spec m f h
  rw [hc] at h1
  cases h1
  have hcop : ∀ id, copies id ⟨s, []⟩ = (warmed f 0 (m.val / 2).toNat).count (some id) := by
    intro id
    simp [copies, h6, h8]
  refine ⟨?_, ?_⟩
  · intro id
    rw [hcop]
    exact (warmed_count f hf id _ 0).1
  · intro id hp
    rw [hcop] at hp
    obtain ⟨k, _, hk2, hk3⟩ := (warmed_count f hf id _ 0).2 hp
    exact ⟨k, by dsimp only; rw [h2]; omega, hk3⟩

theorem copies_same (id : ResId) (st st1 : Run)
    (h1 : st1.sys.cp.p.buf = st.sys.cp.p.buf) (h2 : st1.out = st.out)
    (h3 : st1.sys.closed = st.sys.closed) : copies id st1 = copies id st := by
  simp only [copies, h1, h2, h3]

theorem copies_taken (id : ResId) (x : ResourceAble) (rest : List ResourceAble)
    (st st1 : Run) (hb : st.sys.cp.p.buf = x :: rest) (h1 : st1.sys.cp.p.buf = rest)
    (h2 : st1.out = handed (x, none) ++ st.out) (h3 : st1.sys.closed = st.sys.closed) :
    copies id st1 = copies id st := by
  simp only [copies, h1, h2, h3, hb]
  cases x with
  | none => simp [handed]
  | some y =>
    simp only [handed, List.singleton_append, List.count_cons]
    by_cases hx : y = id
    · subst hx
      simp
      omega
    · have e1 : (y == id) = false := by simpa using hx
      have e2 : ((some y : ResourceAble) == some id) = false := by simpa using hx
      simp [e1, e2]

theorem copies_made (id y : ResId) (st st1 : Run)
    (h1 : st1.sys.cp.p.buf = st.sys.cp.p.buf) (h2 : st1.out = y :: st.out)
    (h3 : st1.sys.closed = st.sys.closed) :
    copies id st1 = copies id st + (if y = id then 1 else 0) := by
  simp only [copies, h1, h2, h3, List.count_cons, beq_iff_eq]
  omega

theorem copies_released (id r : ResId) (st st1 : Run) (hr : r ∈ st.out)
    (h2 : st1.out = st.out.erase r)
    (h : (st1.sys.closed = st.sys.closed ++ [r] ∧ st1.sys.cp.p.buf = st.sys.cp.p.buf) ∨
         (st1.sys.closed = st.sys.closed ∧ st1.sys.cp.p.buf = st.sys.cp.p.buf ++ [some r])) :
    copies id st1 = copies id st := by
  have herase : (st.out.erase r).count id + (if r = id then 1 else 0) = st.out.count id := by
    by_cases hx : r = id
    · subst hx
      have hpos : 0 < st.out.count r := List.count_pos_iff.mpr hr
      rw [List.count_erase_self, if_pos rfl]
      omega
    · rw [List.count_erase_of_ne (fun e => hx e.symm), if_neg hx]
      rfl
  have hsing : ([r] : List ResId).count id = if r = id then 1 else 0 := by
    simp [List.count_singleton]
  have hsing2 : ([some r] : List ResourceAble).count (some id) = if r = id then 1 else 0 := by
    by_cases hx : r = id
    · subst hx
      simp
    · simp [List.count_singleton, hx]
  rcases h with ⟨e1, e2⟩ | ⟨e1, e2⟩
  · simp only [copies, e1, e2, h2, List.count_append, hsing]
    omega
  · simp only [copies, e1, e2, h2, List.count_append, hsing2]
    omega

theorem Owned_of_copies (f : Factory) (st st1 : Run)
    (hcop : ∀ id, copies id st1 = copies id st) (hcalls : st.sys.calls ≤ st1.sys.calls)
    (how : Owned f st) : Owned f st1 := by
  obtain ⟨o1, o2⟩ := how
  refine ⟨fun id => by rw [hcop]; exact o1 id, fun id hp => ?_⟩
  rw [hcop] at hp
  obtain ⟨k, hk1, hk2⟩ := o2 id hp
  exact ⟨k, by omega, hk2⟩

theorem Owned_attempt (m : int32) (f : Factory) (hf : FreshFactory f) (st : Run)
    (hinv : Inv m f st) (how : Owned f st) :
    Owned f ⟨(getOrCreate st.sys).2, handed (getOrCreate st.sys).1 ++ st.out⟩ := by
  obtain ⟨_, i2, _, _, _⟩ := hinv
  subst i2
  cases hb : st.sys.cp.p.buf with
  | cons x rest =>
    rw [getOrCreate_idle st.sys x rest hb]
    exact Owned_of_copies _ st _ (fun id => copies_taken id x rest st _ hb rfl rfl rfl)
      (le_refl _) how
  | nil =>
    by_cases hlt : st.sys.cp.openConn.val < st.sys.cp.maxConn.val
    · by_cases he : (st.sys.cp.factory st.sys.calls).2 = none
      · rw [getOrCreate_made st.sys hb hlt he]
        cases hr : (st.sys.cp.factory st.sys.calls).1 with
        | none =>
          rw [handed_nil _ (Or.inr hr)]
          exact Owned_of_copies _ st _ (fun id => copies_same id st _ rfl rfl rfl)
            (Nat.le_succ _) how
        | some y =>
          have hres : st.sys.cp.factory st.sys.calls = (some y, none) := Prod.ext hr he
          obtain ⟨o1, o2⟩ := how
          rw [hres]
          have hy0 : copies y st = 0 := by
            by_contra hne
            obtain ⟨k, hk1, hk2⟩ := o2 y (Nat.pos_of_ne_zero hne)
            have := hf k st.sys.calls y hk2 hres
            omega
          refine ⟨fun id => ?_, fun id hp => ?_⟩
          · refine le_of_eq_of_le (copies_made id y st _ ?_ ?_ ?_) ?_
            · rfl
            · rfl
            · rfl
            by_cases hyi : y = id
            · subst hyi
              rw [hy0]
              simp
            · rw [if_neg hyi]
              exact o1 id
          · have hp1 : 0 < copies id st + (if y = id then 1 else 0) := by
              refine lt_of_lt_of_eq hp (copies_made id y st _ ?_ ?_ ?_) <;> rfl
            clear hp
            rename' hp1 => hp
            by_cases hyi : y = id
            · subst hyi
              exact ⟨st.sys.calls, Nat.lt_succ_self _, hres⟩
            · rw [if_neg hyi] at hp
              obtain ⟨k, hk1, hk2⟩ := o2 id hp
              exact ⟨k, Nat.lt_succ_of_lt hk1, hk2⟩
      · rw [getOrCreate_failed st.sys hb hlt he, handed_nil _ (Or.inl he)]
        exact Owned_of_copies _ st _ (fun id => copies_same id st _ rfl rfl rfl)
          (Nat.le_succ _) how
    · rw [getOrCreate_full st.sys hb (by omega), handed_nil _ (Or.inr rfl)]
      exact how

theorem Owned_step (m : int32) (f : Factory) (hf : FreshFactory f) (st st1 : Run) (op : Op)
    (hinv : Inv m f st) (how : Owned f st) (hs : st.step op = some st1) : Owned f st1 := by
  rcases step_cases st st1 op hs with ⟨_, rfl⟩ | ⟨r, alive, s1, _, hr, hrel, rfl⟩
  · exact Owned_attempt m f hf st hinv how
  · obtain ⟨c1, _, _, hcase⟩ := release_cases _ r st.sys s1 hrel
    refine Owned_of_copies f st _ (fun id => copies_released id r st _ hr rfl ?_)
      (le_of_eq c1.symm) how
    rcases hcase with ⟨e1, e2, _⟩ | ⟨e1, e2, _⟩
    · exact Or.inl ⟨e1, by rw [e2]⟩
    · exact Or.inr ⟨e1, e2⟩

theorem GetResource_closed (fuel : Nat) : ∀ (s : Sys) (res : ResourceAble × error) (s1 : Sys),
    GetResource fuel s = some (res, s1) → s1.closed = s.closed := by
  induction fuel with
  | zero =>
    intro s res s1 h
    simp only [GetResource] at h
    cases h
  | succ n ih =>
    intro s res s1 h
    obtain ⟨_, _, _, f4, _⟩ := getOrCreate_frame s
    by_cases hc : (getOrCreate s).1.2 ≠ none ∨ (getOrCreate s).1.1 = none
    · rw [GetResource_continue n s hc] at h
      exact (ih _ res s1 h).trans f4
    · push_neg at hc
      obtain ⟨he, hr⟩ := hc
      obtain ⟨id, hid⟩ := Option.ne_none_iff_exists'.mp hr
      rw [GetResource_return n s id (Prod.ext hid he)] at h
      cases h
      exact f4

/-- A GetResource call that returns is a finite run of acquire attempts, the last
of which hands the returned resource to the caller. -/
theorem GetResource_as_attempts (fuel : Nat) :
    ∀ (s : Sys) (res : ResourceAble × error) (s1 : Sys) (out : List ResId),
      GetResource fuel s = some (res, s1) →
      ∃ n id, res = (some id, none) ∧
        Run.exec ⟨s, out⟩ (List.replicate n Op.attempt) = some ⟨s1, id :: out⟩ := by
  induction fuel with
  | zero =>
    intro s res s1 out h
    simp only [GetResource] at h
    cases h
  | succ k ih =>
    intro s res s1 out h
    by_cases hc : (getOrCreate s).1.2 ≠ none ∨ (getOrCreate s).1.1 = none
    · rw [GetResource_continue k s hc] at h
      obtain ⟨n, id, h1, h2⟩ := ih _ res s1 out h
      refine ⟨n + 1, id, h1, ?_⟩
      rw [List.replicate_succ, exec_attempt_cons, handed_nil _ hc]
      exact h2
    · push_neg at hc
      obtain ⟨he, hr⟩ := hc
      obtain ⟨id, hid⟩ := Option.ne_none_iff_exists'.mp hr
      have hg : (getOrCreate s).1 = (some id, none) := Prod.ext hid he
      rw [GetResource_return k s id hg] at h
      cases h
      refine ⟨1, id, rfl, ?_⟩
      rw [List.replicate_one, exec_attempt_cons, hg]
      rfl

/-- C16, counterexample: with a factory that hands out the same resource object on
every call, CreatePool(4) puts it in idle twice.  One copy is acquired and released
while inactive, once, while checked out: Close is called on the resource, it is in
idle all the same, and the next attempt returns it to a caller. -/
theorem closed_resource_comes_back :
    ∃ s0 st2 st3, CreatePool (wrap32 4) sameFactory = Outcome.ok s0 ∧
      Run.exec ⟨s0, []⟩ [Op.attempt, Op.release 0 false] = some st2 ∧
      st2.sys.closed = [0] ∧ st2.sys.cp.p.buf = [some 0] ∧
      Run.exec ⟨s0, []⟩ [Op.attempt, Op.release 0 false, Op.attempt] = some st3 ∧
      st3.sys.closed = [0] ∧ st3.out = [0] :=
  ⟨_, _, _, rfl, rfl, rfl, rfl, rfl, rfl, rfl⟩

/-- C16, amended: for a pool created with maxConn ≥ 0 and a factory that never hands
out the same resource twice, in every state reached by acquire attempts and
releases of checked-out resources, Close has been called at most once on any
resource, and a resource on which Close has been called is not in idle, is not
checked out, and is not returned by GetResource. -/
theorem close_at_most_once (maxConn : int32) (factory : Factory) (h0 : 0 ≤ maxConn.val)
    (hfresh : FreshFactory factory) :
    ∃ s0, CreatePool maxConn factory = Outcome.ok s0 ∧
      ∀ ops st, Run.exec ⟨s0, []⟩ ops = some st →
        ∀ id, st.sys.closed.count id ≤ 1 ∧
          (id ∈ st.sys.closed →
            some id ∉ st.sys.cp.p.buf ∧ id ∉ st.out ∧
            ∀ fuel res s2, GetResource fuel st.sys = some (res, s2) → res.1 ≠ some id) := by
  obtain ⟨s0, c1, _⟩ := CreatePool_spec maxConn factory h0
  refine ⟨s0, c1, ?_⟩
  intro ops st he id
  have hinv0 := Inv_init maxConn factory h0 s0 c1
  have hstep : ∀ (st st1 : Run) (op : Op), Inv maxConn factory st → Owned factory st →
      st.step op = some st1 → Owned factory st1 :=
    fun st st1 op hi hp hs => Owned_step maxConn factory hfresh st st1 op hi hp hs
  have hinv := Inv_exec maxConn factory ops _ st hinv0 he
  have how := exec_induction (Owned factory) maxConn factory hstep ops _ st hinv0
    (Owned_init maxConn factory h0 hfresh s0 c1) he
  have h1 := how.once id
  unfold copies at h1
  refine ⟨by omega, ?_⟩
  intro hmem
  have hpos : 0 < st.sys.closed.count id := List.count_pos_iff.mpr hmem
  refine ⟨?_, ?_, ?_⟩
  · intro hb
    have : 0 < st.sys.cp.p.buf.count (some id) := List.count_pos_iff.mpr hb
    omega
  · intro hb
    have : 0 < st.out.count id := List.count_pos_iff.mpr hb
    omega
  · intro fuel res s2 hget hres
    obtain ⟨n, id2, e1, e2⟩ := GetResource_as_attempts fuel st.sys res s2 st.out hget
    have hcl := GetResource_closed fuel st.sys res s2 hget
    have how2 := exec_induction (Owned factory) maxConn factory hstep _ st
      ⟨s2, id2 :: st.out⟩ hinv how e2
    have h2 := how2.once id
    rw [e1] at hres
    have hid : id2 = id := Option.some.inj hres
    subst hid
    unfold copies at h2
    simp only [hcl, List.count_cons_self] at h2
    omega

theorem close_at_most_once_witness :
    ∃ s0 st, CreatePool (wrap32 2) freshFactory = Outcome.ok s0 ∧
      Run.exec ⟨s0, []⟩ [Op.attempt, Op.release 0 false, Op.attempt] = some st ∧
      st.sys.closed = [0] ∧ st.out = [1] ∧
      st.sys.closed.count 0 ≤ 1 ∧ some 0 ∉ st.sys.cp.p.buf ∧ 0 ∉ st.out := by
  obtain ⟨s0, h0, h⟩ := close_at_most_once (wrap32 2) freshFactory (by decide)
    (by
      intro i j id hi hj
      have e1 : i = id := Option.some.inj (congrArg Prod.fst hi)
      have e2 : j = id := Option.some.inj (congrArg Prod.fst hj)
      omega)
  have e0 : CreatePool (wrap32 2) freshFactory = Outcome.ok _ := rfl
  rw [e0] at h0
  cases h0
  obtain ⟨h1, h2⟩ := h [Op.attempt, Op.release 0 false, Op.attempt] _ rfl 0
  obtain ⟨h3, h4, _⟩ := h2 (by decide)
  exact ⟨_, _, rfl, rfl, rfl, rfl, h1, h3, h4⟩

/-! ## Shutdown -/

/-- C15: the struct commonPool has no Shutdown method and no field that marks a pool
as shut down, and no pool state makes GetResource fail: in every state of the pool,
whatever it has been through, a GetResource that returns does so with a nil error
and a non-nil resource.  So there is nothing a Shutdown could set that would turn
later GetResource calls into terminal errors. -/
theorem no_state_rejects_acquire (s : Sys) (fuel : Nat) (res : ResourceAble × error)
    (s1 : Sys) (h : GetResource fuel s = some (res, s1)) :
    res.2 = none ∧ res.1 ≠ none := by
  obtain ⟨h1, id, h2⟩ := GetResource_sound fuel s res s1 h
  exact ⟨h1, by rw [h2]; simp⟩

theorem no_state_rejects_acquire_witness :
    ∃ res s1, GetResource 1 (mkSys 4 1 4 [some 5] freshFactory) = some (res, s1) ∧
      res.2 = none ∧ res.1 ≠ none :=
  ⟨_, _, rfl, no_state_rejects_acquire (mkSys 4 1 4 [some 5] freshFactory) 1 _ _ rfl⟩

end ConnPool
